import Mathlib

/-!
relayTelegram: session mapping, relay protocol and outbound chunker.

A shallow embedding of `bot.go`, `mappings.go` and `eve.go`.

Go strings are byte sequences; they are embedded as lists of byte values.
-/

namespace RelayTelegram

/-- A Go `string`: an immutable sequence of bytes (each value below 256). -/
abbrev GoString := List Nat

/-- A string literal: the UTF-8 bytes of an ASCII literal of the source. -/
def str (s : String) : GoString := s.toList.map Char.toNat

/-! ## unicode/utf8 -/

/-- Modelled from Go's unicode/utf8: `RuneError`, the replacement rune U+FFFD. -/
def RuneError : Nat := 0xFFFD

/-- Modelled from Go's unicode/utf8: `RuneSelf`, bytes below it are single-byte runes. -/
def RuneSelf : Nat := 0x80

/-- Modelled from Go's unicode/utf8: lowest continuation byte. -/
def locb : Nat := 0x80

/-- Modelled from Go's unicode/utf8: highest continuation byte. -/
def hicb : Nat := 0xBF

/-- Modelled from Go's unicode/utf8: the `first` table, information about the first byte
of an encoding (`as` = 0xF0 for ASCII, `xx` = 0xF1 for an invalid first byte, otherwise
the size in the low three bits and the accept-range index in the high four). -/
def first (b : Nat) : Nat :=
  if b < 0x80 then 0xF0
  else if b < 0xC2 then 0xF1
  else if b < 0xE0 then 0x02
  else if b = 0xE0 then 0x13
  else if b < 0xED then 0x03
  else if b = 0xED then 0x23
  else if b < 0xF0 then 0x03
  else if b = 0xF0 then 0x34
  else if b < 0xF4 then 0x04
  else if b = 0xF4 then 0x44
  else 0xF1

/-- Modelled from Go's unicode/utf8: `acceptRanges`, the range of valid second bytes. -/
def acceptRanges (i : Nat) : Nat × Nat :=
  match i with
  | 0 => (locb, hicb)
  | 1 => (0xA0, hicb)
  | 2 => (locb, 0x9F)
  | 3 => (0x90, hicb)
  | 4 => (locb, 0x8F)
  | _ => (0, 0)

/-- Modelled from Go's unicode/utf8: `DecodeRuneInString`, the first rune of `s` and its
width in bytes; `(RuneError, 0)` for the empty string and `(RuneError, 1)` for an invalid
or short encoding. -/
def DecodeRuneInString (s : GoString) : Nat × Nat :=
  match s with
  | [] => (RuneError, 0)
  | s0 :: _ =>
    let x := first s0
    if x ≥ 0xF0 then
      (if x = 0xF0 then s0 else RuneError, 1)
    else
      let sz := x % 8
      let accept := acceptRanges (x / 16)
      if s.length < sz then (RuneError, 1)
      else
        let s1 := s.getD 1 0
        if s1 < accept.1 ∨ accept.2 < s1 then (RuneError, 1)
        else if sz ≤ 2 then ((s0 % 32) * 64 + s1 % 64, 2)
        else
          let s2 := s.getD 2 0
          if s2 < locb ∨ hicb < s2 then (RuneError, 1)
          else if sz ≤ 3 then ((s0 % 16) * 4096 + (s1 % 64) * 64 + s2 % 64, 3)
          else
            let s3 := s.getD 3 0
            if s3 < locb ∨ hicb < s3 then (RuneError, 1)
            else ((s0 % 8) * 262144 + (s1 % 64) * 4096 + (s2 % 64) * 64 + s3 % 64, 4)

/-- Modelled from Go's unicode/utf8: the width `RuneCountInString` advances by at the
head of a non-empty `s` (1 for ASCII, for an invalid first byte and for a short or
invalid encoding). -/
def runeWidth (s : GoString) : Nat :=
  match s with
  | [] => 0
  | c :: _ =>
    if c < RuneSelf then 1
    else
      let x := first c
      if x = 0xF1 then 1
      else
        let size := x % 8
        if size > s.length then 1
        else
          let accept := acceptRanges (x / 16)
          let c1 := s.getD 1 0
          if c1 < accept.1 ∨ accept.2 < c1 then 1
          else if size = 2 then size
          else
            let c2 := s.getD 2 0
            if c2 < locb ∨ hicb < c2 then 1
            else if size = 3 then size
            else
              let c3 := s.getD 3 0
              if c3 < locb ∨ hicb < c3 then 1
              else size

/-- The loop of `RuneCountInString`: one rune per iteration, `fuel` bounds the iterations. -/
def runeCountLoop : Nat → GoString → Nat
  | 0, _ => 0
  | fuel + 1, s =>
    match s with
    | [] => 0
    | _ :: _ => 1 + runeCountLoop fuel (s.drop (runeWidth s))

/-- Modelled from Go's unicode/utf8: `RuneCountInString`, the number of runes in `s`;
erroneous and short encodings count as single runes of width one byte. -/
def RuneCountInString (s : GoString) : Nat := runeCountLoop s.length s

/-- The loop of `ValidString`. -/
def validLoop : Nat → GoString → Bool
  | 0, s => s.isEmpty
  | fuel + 1, s =>
    match s with
    | [] => true
    | _ :: _ =>
      let d := DecodeRuneInString s
      if d.1 = RuneError ∧ d.2 = 1 then false else validLoop fuel (s.drop d.2)

/-- Modelled from Go's unicode/utf8: `ValidString`, whether `s` consists entirely of
valid UTF-8 encoded runes. -/
def ValidString (s : GoString) : Bool := validLoop s.length s

/-- A byte offset of `s` at which a rune starts (or `s` ends) when `s` is decoded from its
start. -/
inductive Boundary : GoString → Nat → Prop
  | zero (s : GoString) : Boundary s 0
  | step (s : GoString) (c : Nat) (hs : s ≠ [])
      (h : Boundary (s.drop (DecodeRuneInString s).2) c) :
      Boundary s ((DecodeRuneInString s).2 + c)

/-! ## strings -/

/-- The scan of `LastIndex`: `pos` is the offset of the remaining suffix and `best` the
last match seen so far. -/
def lastIndexScan (substr : GoString) : GoString → Nat → Int → Int
  | [], pos, best => if substr = [] then (pos : Int) else best
  | c :: rest, pos, best =>
    lastIndexScan substr rest (pos + 1)
      (if substr.isPrefixOf (c :: rest) then (pos : Int) else best)

/-- Modelled from Go's strings: `LastIndex`, the index of the last instance of `substr`
in `s`, or -1 if `substr` is not present in `s`. -/
def LastIndex (s substr : GoString) : Int := lastIndexScan substr s 0 (-1)

/-- Modelled from Go's strings: `TrimLeft` for an ASCII cutset, `s` with all leading
bytes contained in `cutset` removed. -/
def TrimLeft (s cutset : GoString) : GoString := s.dropWhile (fun b => decide (b ∈ cutset))

/-- Modelled from Go's strings: `Contains`, whether `substr` is within `s`. -/
def Contains (s substr : GoString) : Bool := decide (substr <:+: s)

/-! ## bot.go: the outbound chunker -/

/-- The loop of `runeByteIndex`: `count` iterations remain, `i` is the byte index. -/
def runeByteIndexLoop (s : GoString) : Nat → Nat → Nat
  | 0, i => i
  | count + 1, i =>
    if i < s.length then
      runeByteIndexLoop s count (i + (DecodeRuneInString (s.drop i)).2)
    else i

/-- The function `runeByteIndex` of bot.go: the byte index of the n-th rune in `s`, or
`len(s)` if `s` has fewer than `n` runes. -/
def runeByteIndex (s : GoString) (n : Nat) : Nat := runeByteIndexLoop s n 0

/-- The constant `maxLen` of `sendLongMessage`. -/
def maxLen : Nat := 4096

/-- The cut position one iteration of the loop of `sendLongMessage` chooses
(bot.go lines 347-359). -/
def cutIndex (text : GoString) : Int :=
  let byteLimit := runeByteIndex text maxLen
  let cut := LastIndex (text.take byteLimit) [10, 10]
  let cut := if cut < ((byteLimit / 2 : Nat) : Int) then LastIndex (text.take byteLimit) [10] else cut
  let cut := if cut < ((byteLimit / 2 : Nat) : Int) then (byteLimit : Int) else cut
  cut

/-- The `for len(text) > 0` loop of `sendLongMessage`. `replyErr k` is the error the
k-th call of `c.Reply` returns (`none` for success). The result is the list of chunks
handed to `c.Reply`, in order, and the error returned; `none` only when `fuel`
iterations were not enough. -/
def sendLoop (replyErr : Nat → Option GoString) :
    Nat → Nat → GoString → Option (List GoString × Option GoString)
  | 0, _, text => if text.length > 0 then none else some ([], none)
  | fuel + 1, k, text =>
    if text.length > 0 then
      if RuneCountInString text ≤ maxLen then some ([text], replyErr k)
      else
        let cut := cutIndex text
        let chunk := text.take cut.toNat
        let text' := TrimLeft (text.drop cut.toNat) [10]
        match replyErr k with
        | some err => some ([chunk], some err)
        | none => (sendLoop replyErr fuel (k + 1) text').map (fun r => (chunk :: r.1, r.2))
    else some ([], none)

/-- The method `Bot.sendLongMessage` of bot.go: the chunks handed to `c.Reply` and the
returned error. -/
def sendLongMessage (replyErr : Nat → Option GoString) (text : GoString) :
    Option (List GoString × Option GoString) :=
  if RuneCountInString text ≤ maxLen then some ([text], replyErr 0)
  else sendLoop replyErr text.length 0 text

/-- Every call of `c.Reply` succeeds. -/
def replyOk : Nat → Option GoString := fun _ => none

/-- The text with the separators re-inserted: every chunk followed by its separator, in
order. -/
def rejoin : List GoString → List GoString → GoString
  | c :: cs, s :: ss => c ++ s ++ rejoin cs ss
  | _, _ => []

/-- An occurrence of `substr` in `s` at byte offset `i` after which `substr` does not
occur again. -/
def IsLastOccurrence (s substr : GoString) (i : Nat) : Prop :=
  substr.isPrefixOf (s.drop i) = true ∧
    ∀ j, i < j → j ≤ s.length → substr.isPrefixOf (s.drop j) = false

/-- The midpoint rule for the cut `c` of a window: the last double line break when it lies
at or after the midpoint, otherwise the last single line break when it lies at or after
the midpoint, otherwise the whole window. `measure i` is the position of byte offset `i`
in the unit the midpoint `mid` is counted in. -/
def MidpointRule (measure : Nat → Nat) (mid : Nat) (window : GoString) (c : Nat) : Prop :=
  (∃ i, IsLastOccurrence window [10, 10] i ∧ mid ≤ measure i ∧ c = i) ∨
  ((∀ i, IsLastOccurrence window [10, 10] i → measure i < mid) ∧
    ∃ j, IsLastOccurrence window [10] j ∧ mid ≤ measure j ∧ c = j) ∨
  ((∀ i, IsLastOccurrence window [10, 10] i → measure i < mid) ∧
    (∀ j, IsLastOccurrence window [10] j → measure j < mid) ∧ c = window.length)

/-- The midpoint rule with positions and midpoint counted in runes: the midpoint of a
window of `maxLen` runes is `maxLen / 2` runes. -/
def MidpointRuleRunes (text : GoString) (c : Nat) : Prop :=
  MidpointRule (fun i => RuneCountInString ((text.take (runeByteIndex text maxLen)).take i))
    (maxLen / 2) (text.take (runeByteIndex text maxLen)) c

/-- The midpoint rule with positions and midpoint counted in bytes: the midpoint of the
window is half its byte length. -/
def MidpointRuleBytes (text : GoString) (c : Nat) : Prop :=
  MidpointRule (fun i => i) (runeByteIndex text maxLen / 2)
    (text.take (runeByteIndex text maxLen)) c

/-- The chunks the loop of `sendLongMessage` hands to `c.Reply` for the remaining text `t`
from its `k`-th call of `c.Reply` on, every cut satisfying `P`: nothing for the empty
text; the text itself when it has at most `maxLen` runes; otherwise the text up to a cut
`c` with `P t c`, alone when that `c.Reply` fails, and otherwise followed by the chunks
of the remainder after the cut without its leading line breaks. -/
inductive LoopChunks (P : GoString → Nat → Prop) (replyErr : Nat → Option GoString) :
    Nat → GoString → List GoString → Prop
  | done (k : Nat) : LoopChunks P replyErr k [] []
  | last (k : Nat) (t : GoString) (hne : t ≠ []) (h : RuneCountInString t ≤ maxLen) :
      LoopChunks P replyErr k t [t]
  | stop (k : Nat) (t : GoString) (c : Nat) (err : GoString)
      (h : maxLen < RuneCountInString t) (hP : P t c) (hk : replyErr k = some err) :
      LoopChunks P replyErr k t [t.take c]
  | cut (k : Nat) (t : GoString) (c : Nat) (rest : List GoString)
      (h : maxLen < RuneCountInString t) (hP : P t c) (hk : replyErr k = none)
      (hrest : LoopChunks P replyErr (k + 1) (TrimLeft (t.drop c) [10]) rest) :
      LoopChunks P replyErr k t (t.take c :: rest)

/-- The cut `c` of the remaining text `t` follows the midpoint rule counted in bytes, and
a chunk that is the whole window has exactly `maxLen` runes. -/
def MidpointCut (t : GoString) (c : Nat) : Prop :=
  MidpointRuleBytes t c ∧
    (c = runeByteIndex t maxLen → RuneCountInString (t.take c) = maxLen)

/-- The cut `c` of the remaining text `t` splits valid UTF-8 on a rune boundary: `t` is
valid, `c` is a rune boundary of `t`, and the chunk before the cut and the remainder
after it are valid. -/
def BoundaryCut (t : GoString) (c : Nat) : Prop :=
  ValidString t = true ∧ Boundary t c ∧ ValidString (t.take c) = true ∧
    ValidString (t.drop c) = true

/-- The string made of `n` copies of `block`. -/
def repeatBlock : Nat → GoString → GoString
  | 0, _ => []
  | n + 1, block => block ++ repeatBlock n block

/-- The text of 4096 letters `a` followed by one line break: 4097 runes. -/
def trailingBreakText : GoString := repeatBlock 4096 [97] ++ [10]

/-- The text of 2048 letters `a`, one line break, 2047 letters `é` (two bytes each) and a
final `a`: 4097 runes in 6144 bytes. -/
def accentedText : GoString :=
  repeatBlock 2048 [97] ++ (repeatBlock 1 [10] ++ (repeatBlock 2047 [0xC3, 0xA9] ++ [97]))

/-- The text of 2049 emoji U+1F600 (four bytes each): 2049 runes. -/
def emojiText : GoString := repeatBlock 2049 [0xF0, 0x9F, 0x98, 0x80]

/-- The loop of `utf16Len`. -/
def utf16LenLoop : Nat → GoString → Nat
  | 0, _ => 0
  | fuel + 1, s =>
    match s with
    | [] => 0
    | _ :: _ =>
      let d := DecodeRuneInString s
      (if d.1 ≥ 0x10000 then 2 else 1) + utf16LenLoop fuel (s.drop d.2)

/-- The length of `s` in UTF-16 code units, the unit of Telegram's message limit: a rune
of the supplementary planes takes two code units, every other rune one. -/
def utf16Len (s : GoString) : Nat := utf16LenLoop s.length s

/-! ## mappings.go: the mapping store -/

/-- The struct `SessionMapping`; `LastActive` is a timestamp. -/
structure SessionMapping where
  EveSessionID : GoString
  LastActive : Nat

/-- The struct `ChatMapping`; `Sessions` is the map from thread id to session. `LinkChat`
always allocates it and `save` writes it as a JSON object, so it is never a nil map in a
store this program built or wrote. -/
structure ChatMapping where
  ProjectID : GoString
  ProjectName : GoString
  Sessions : GoString → Option SessionMapping

/-- The struct `MappingsData`; `ChatMappings` is the map from chat id to mapping. -/
structure MappingsData where
  ChatMappings : GoString → Option ChatMapping

/-- The struct `Mappings`: the in-memory store (the mutex and the file path carry no
state of their own). -/
structure Mappings where
  data : MappingsData

/-- The map assignment `m[k] = v`. -/
def mapSet {V : Type} (m : GoString → Option V) (k : GoString) (v : V) :
    GoString → Option V :=
  fun k' => if k' = k then some v else m k'

/-- The builtin `delete(m, k)`. -/
def mapDelete {V : Type} (m : GoString → Option V) (k : GoString) : GoString → Option V :=
  fun k' => if k' = k then none else m k'

/-- The method `Mappings.GetChatMapping`: a copy of the chat's mapping, or nil. -/
def Mappings.GetChatMapping (m : Mappings) (chatID : GoString) : Option ChatMapping :=
  match m.data.ChatMappings chatID with
  | none => none
  | some cm => some { ProjectID := cm.ProjectID, ProjectName := cm.ProjectName,
                      Sessions := cm.Sessions }

/-- The method `Mappings.LinkChat`; `saveErr` is what `m.save()` returns. The result is
the store afterwards and the returned error. -/
def Mappings.LinkChat (m : Mappings) (saveErr : Option GoString)
    (chatID projectID projectName : GoString) : Mappings × Option GoString :=
  let cm : ChatMapping :=
    { ProjectID := projectID, ProjectName := projectName, Sessions := fun _ => none }
  ({ data := { ChatMappings := mapSet m.data.ChatMappings chatID cm } }, saveErr)

/-- The method `Mappings.UnlinkChat`. -/
def Mappings.UnlinkChat (m : Mappings) (saveErr : Option GoString) (chatID : GoString) :
    Mappings × Option GoString :=
  ({ data := { ChatMappings := mapDelete m.data.ChatMappings chatID } }, saveErr)

/-- The method `Mappings.GetSession`. -/
def Mappings.GetSession (m : Mappings) (chatID threadID : GoString) : Option SessionMapping :=
  match m.data.ChatMappings chatID with
  | none => none
  | some cm => cm.Sessions threadID

/-- The method `Mappings.SetSession`; `now` is what `time.Now()` returns. -/
def Mappings.SetSession (m : Mappings) (saveErr : Option GoString) (now : Nat)
    (chatID threadID eveSessionID : GoString) : Mappings × Option GoString :=
  match m.data.ChatMappings chatID with
  | none => (m, none)
  | some cm =>
    let s : SessionMapping := { EveSessionID := eveSessionID, LastActive := now }
    let cm' : ChatMapping := { cm with Sessions := mapSet cm.Sessions threadID s }
    ({ data := { ChatMappings := mapSet m.data.ChatMappings chatID cm' } }, saveErr)

/-- The method `Mappings.ClearSession`. -/
def Mappings.ClearSession (m : Mappings) (saveErr : Option GoString)
    (chatID threadID : GoString) : Mappings × Option GoString :=
  match m.data.ChatMappings chatID with
  | none => (m, none)
  | some cm =>
    let cm' : ChatMapping := { cm with Sessions := mapDelete cm.Sessions threadID }
    ({ data := { ChatMappings := mapSet m.data.ChatMappings chatID cm' } }, saveErr)

/-! ## eve.go: the agent client -/

/-- The struct `CreateSessionResponse`. -/
structure CreateSessionResponse where
  SessionID : GoString
  ProjectID : GoString
  Model : GoString

/-- The struct `SendMessageResponse`. -/
structure SendMessageResponse where
  Response : GoString
  Stats : GoString
  Error : GoString

/-- The struct `EveProject`. -/
structure EveProject where
  ID : GoString
  Name : GoString
  Path : GoString
  Model : GoString
  Disabled : Bool

/-- What an HTTP exchange yields: an error of the request itself, an error reading the
body, or a response: its status code, its body, and what decoding the body as JSON
into the result type gives (`json.Unmarshal`, `json.Decoder.Decode`). -/
inductive HttpResult (α : Type) where
  | requestErr (err : GoString)
  | readErr (err : GoString)
  | response (StatusCode : Nat) (body : GoString) (decoded : Except GoString α)

/-- The struct `EveClient`, as the backend behind it: what each of the three requests
yields. -/
structure EveClient where
  getProjects : HttpResult (List EveProject)
  postSession : GoString → GoString → HttpResult CreateSessionResponse
  postMessage : GoString → GoString → HttpResult SendMessageResponse

/-- Modelled from Go's fmt: the verb `%d` for a non-negative integer. -/
def formatInt (n : Nat) : GoString := str (Nat.repr n)

/-- The method `EveClient.ListProjects`. An error reading the body surfaces in the
decoder. -/
def EveClient.ListProjects (e : EveClient) : Except GoString (List EveProject) :=
  match e.getProjects with
  | .requestErr err => .error (str "failed to reach Eve: " ++ err)
  | .readErr err => .error (str "failed to decode projects: " ++ err)
  | .response StatusCode body decoded =>
    if StatusCode ≠ 200 then
      .error (str "Eve returned " ++ formatInt StatusCode ++ str ": " ++ body)
    else
      match decoded with
      | .error err => .error (str "failed to decode projects: " ++ err)
      | .ok projects => .ok projects

/-- The method `EveClient.CreateSession`. -/
def EveClient.CreateSession (e : EveClient) (projectID name : GoString) :
    Except GoString CreateSessionResponse :=
  match e.postSession projectID name with
  | .requestErr err => .error (str "failed to reach Eve: " ++ err)
  | .readErr err => .error (str "failed to decode response: " ++ err)
  | .response StatusCode body decoded =>
    if StatusCode ≠ 200 then
      .error (str "Eve returned " ++ formatInt StatusCode ++ str ": " ++ body)
    else
      match decoded with
      | .error err => .error (str "failed to decode response: " ++ err)
      | .ok result => .ok result

/-- The method `EveClient.SendMessage`. -/
def EveClient.SendMessage (e : EveClient) (sessionID text : GoString) :
    Except GoString SendMessageResponse :=
  match e.postMessage sessionID text with
  | .requestErr err => .error (str "failed to reach Eve: " ++ err)
  | .readErr err => .error (str "failed to read response: " ++ err)
  | .response StatusCode _ decoded =>
    if StatusCode = 409 then .error (str "session is busy processing another message")
    else if StatusCode = 504 then .error (str "response timed out")
    else
      match decoded with
      | .error err => .error (str "failed to decode response: " ++ err)
      | .ok result =>
        if StatusCode ≠ 200 then
          let errMsg := result.Error
          let errMsg := if errMsg = [] then str "Eve returned " ++ formatInt StatusCode
            else errMsg
          .error errMsg
        else .ok result

/-! ## bot.go: the relay protocol -/

/-- Modelled from Go's strings: `Join`, the elements of `elems` with `sep` between them. -/
def Join : List GoString → GoString → GoString
  | [], _ => []
  | [a], _ => a
  | a :: b :: rest, sep => a ++ sep ++ Join (b :: rest) sep

/-- A call a handler makes to one of its collaborators: the chat (`c.Reply`), the agent
client, or a mutating method of the mapping store. -/
inductive Event where
  | reply (text : GoString)
  | createSession (projectID name : GoString)
  | sendMessage (sessionID text : GoString)
  | setSession (chatID threadID eveSessionID : GoString)
  | clearSession (chatID threadID : GoString)
  deriving DecidableEq

/-- What the surroundings of a handler supply: the error each call of `m.save()` returns
and the time each call of `time.Now()` returns (both by call site), and the error each
call of `c.Reply` returns while a long message is sent. -/
structure Env where
  saveErr : Nat → Option GoString
  now : Nat → Nat
  replyErr : Nat → Option GoString

/-- The method `Bot.handleMessage` for chat `cid`, thread `tid` and message `text`: the
store afterwards and the calls made, in order. -/
def handleMessage (eve : EveClient) (env : Env) (m : Mappings) (cid tid text : GoString) :
    Mappings × List Event :=
  match m.GetChatMapping cid with
  | none =>
    (m, [Event.reply (str "This chat is not linked to a project. Use /link <projectName>")])
  | some cm =>
    -- Get or create session
    let session : Except (List Event) (Mappings × GoString × List Event) :=
      match m.GetSession cid tid with
      | some sm => .ok (m, sm.EveSessionID, [])
      | none =>
        let sessionName :=
          if tid ≠ str "default" then str "Telegram thread " ++ tid else []
        match eve.CreateSession cm.ProjectID sessionName with
        | .error err =>
          .error [Event.createSession cm.ProjectID sessionName,
            Event.reply (str "Failed to create session: " ++ err)]
        | .ok result =>
          .ok ((m.SetSession (env.saveErr 0) (env.now 0) cid tid result.SessionID).1,
            result.SessionID,
            [Event.createSession cm.ProjectID sessionName,
              Event.setSession cid tid result.SessionID])
    match session with
    | .error events => (m, events)
    | .ok (m1, sid, events) =>
      -- Send message to Eve
      match eve.SendMessage sid text with
      | .error err =>
        if Contains err (str "not found") then
          ((m1.ClearSession (env.saveErr 1) cid tid).1,
            events ++ [Event.sendMessage sid text, Event.clearSession cid tid,
              Event.reply
                (str "Session expired. Send your message again to start a new conversation.")])
        else
          (m1, events ++ [Event.sendMessage sid text, Event.reply (str "Error: " ++ err)])
      | .ok result =>
        -- Update last active
        let m2 := (m1.SetSession (env.saveErr 1) (env.now 1) cid tid sid).1
        let chunks :=
          match sendLongMessage env.replyErr result.Response with
          | some res => res.1
          | none => []
        (m2, events ++ [Event.sendMessage sid text, Event.setSession cid tid sid] ++
          chunks.map Event.reply)

/-- The loop of `handleLink` over the projects (bot.go lines 176-187): the exact match,
if one was found, and the substring matches collected until then. -/
def linkLoop (toLower : GoString → GoString) (queryLower : GoString) :
    List EveProject → List EveProject → Option EveProject × List EveProject
  | [], hits => (none, hits)
  | p :: rest, hits =>
    if p.Disabled then linkLoop toLower queryLower rest hits
    else if toLower p.Name = queryLower then (some p, hits)
    else if Contains (toLower p.Name) queryLower then
      linkLoop toLower queryLower rest (hits ++ [p])
    else linkLoop toLower queryLower rest hits

/-- The method `Bot.handleLink` for chat `cid` and arguments `args`: the store afterwards
and the reply. `toLower` is `strings.ToLower`, `quote` the verb `%q` of fmt, `saveErr`
what `m.save()` returns. -/
def handleLink (toLower quote : GoString → GoString) (eve : EveClient)
    (saveErr : Option GoString) (m : Mappings) (cid : GoString) (args : List GoString) :
    Mappings × GoString :=
  if args.length = 0 then (m, str "Usage: /link <projectName>")
  else
    let query := Join args (str " ")
    match eve.ListProjects with
    | .error err => (m, str "Failed to reach Eve: " ++ err)
    | .ok projects =>
      -- Fuzzy match: case-insensitive substring
      let queryLower := toLower query
      let found := linkLoop toLower queryLower projects []
      let hits := found.2
      let matched : Option EveProject :=
        if found.1.isNone ∧ hits.length = 1 then hits.head? else found.1
      if matched.isNone ∧ hits.length > 1 then
        let names := hits.map (fun p => str "  " ++ p.Name)
        (m, str "Multiple matches:\n" ++ Join names (str "\n") ++ str "\n\nBe more specific.")
      else
        match matched with
        | none => (m, str "No project found matching " ++ quote query)
        | some p =>
          match m.LinkChat saveErr cid p.ID p.Name with
          | (m', some err) => (m', str "Failed to save mapping: " ++ err)
          | (m', none) => (m', str "Linked to project: " ++ p.Name)

/-- The outcome of resolving a query against the project list. -/
inductive Resolution where
  | linked (p : EveProject)
  | notFound
  | ambiguous (names : List GoString)

/-- The two-phase reference resolver over the non-disabled projects: the first
case-insensitive exact match; otherwise the case-insensitive substring matches decide,
none being not found, one being linked, several being ambiguous with all their names. -/
def resolve (toLower : GoString → GoString) (projects : List EveProject) (query : GoString) :
    Resolution :=
  let candidates := projects.filter (fun p => !p.Disabled)
  match candidates.find? (fun p => decide (toLower p.Name = toLower query)) with
  | some p => Resolution.linked p
  | none =>
    match candidates.filter (fun p => Contains (toLower p.Name) (toLower query)) with
    | [] => Resolution.notFound
    | [p] => Resolution.linked p
    | p :: q :: rest => Resolution.ambiguous ((p :: q :: rest).map (fun x => x.Name))

/-- What `handleLink` does for each outcome of the resolver. -/
def linkOutcome (quote : GoString → GoString) (saveErr : Option GoString) (m : Mappings)
    (cid query : GoString) : Resolution → Mappings × GoString
  | Resolution.linked p =>
    ((m.LinkChat saveErr cid p.ID p.Name).1,
      match saveErr with
      | some err => str "Failed to save mapping: " ++ err
      | none => str "Linked to project: " ++ p.Name)
  | Resolution.notFound => (m, str "No project found matching " ++ quote query)
  | Resolution.ambiguous names =>
    (m, str "Multiple matches:\n" ++ Join (names.map (fun n => str "  " ++ n)) (str "\n") ++
      str "\n\nBe more specific.")

/-- The session name `handleMessage` gives a new session of thread `tid`. -/
def sessionNameOf (tid : GoString) : GoString :=
  if tid ≠ str "default" then str "Telegram thread " ++ tid else []

/-- The store without any binding. -/
def emptyStore : Mappings := { data := { ChatMappings := fun _ => none } }

/-- A store in which chat `c1` is linked to project `p1` and no thread has a session. -/
def linkedStore : Mappings :=
  (emptyStore.LinkChat none (str "c1") (str "p1") (str "Proj")).1

/-- A store in which chat `c1` is linked to project `p1` and the default thread has the
session `s0`. -/
def activeStore : Mappings :=
  (linkedStore.SetSession none 1 (str "c1") (str "default") (str "s0")).1

/-- An environment in which saving and replying succeed and the clock shows 7. -/
def quietEnv : Env := { saveErr := fun _ => none, now := fun _ => 7, replyErr := fun _ => none }

/-- A backend that creates the session `s1` and answers every message with the gateway
timeout status 504. -/
def timeoutEve : EveClient :=
  { getProjects := HttpResult.response 200 [] (Except.ok [])
    postSession := fun _ _ =>
      HttpResult.response 200 [] (Except.ok ⟨str "s1", str "p1", []⟩)
    postMessage := fun _ _ => HttpResult.response 504 [] (Except.error []) }

/-- A backend that creates the session `s1` and answers every message with status 404 and
the error message `Session not found`. -/
def expiredEve : EveClient :=
  { getProjects := HttpResult.response 200 [] (Except.ok [])
    postSession := fun _ _ =>
      HttpResult.response 200 [] (Except.ok ⟨str "s1", str "p1", []⟩)
    postMessage := fun _ _ =>
      HttpResult.response 404 [] (Except.ok ⟨[], [], str "Session not found"⟩) }

/-- A backend that answers every message with status 500 and an empty body, which does
not decode as JSON. -/
def emptyBodyEve : EveClient :=
  { getProjects := HttpResult.response 200 [] (Except.ok [])
    postSession := fun _ _ => HttpResult.requestErr []
    postMessage := fun _ _ =>
      HttpResult.response 500 [] (Except.error (str "unexpected end of JSON input")) }

/-- Lower-casing of the ASCII letters, the behaviour of `strings.ToLower` on ASCII text. -/
def lowerASCII (s : GoString) : GoString :=
  s.map (fun b => if 65 ≤ b ∧ b ≤ 90 then b + 32 else b)

/-- A backend whose projects are `Proj A`, `Project B` and the disabled `pro`. -/
def projectsEve : EveClient :=
  { getProjects := HttpResult.response 200 []
      (Except.ok [⟨str "p1", str "Proj A", [], [], false⟩,
        ⟨str "p2", str "Project B", [], [], false⟩, ⟨str "p3", str "pro", [], [], true⟩])
    postSession := fun _ _ => HttpResult.requestErr []
    postMessage := fun _ _ => HttpResult.requestErr [] }

/-! ## Facts about the UTF-8 decoder -/

theorem ite_eq_elim {α : Type} {c : Prop} [Decidable c] {a b v : α}
    (h : (if c then a else b) = v) : (c ∧ a = v) ∨ (¬ c ∧ b = v) := by
  by_cases hc : c
  · rw [if_pos hc] at h; exact Or.inl ⟨hc, h⟩
  · rw [if_neg hc] at h; exact Or.inr ⟨hc, h⟩

set_option maxRecDepth 100000 in
theorem first_small : ∀ b, b < 256 →
    (first b = 0xF0 ∧ b < 0x80 ∨ first b = 0xF1 ∧ 0x80 ≤ b ∨ first b = 0x02 ∧ 0x80 ≤ b ∨
    first b = 0x13 ∧ 0x80 ≤ b ∨ first b = 0x03 ∧ 0x80 ≤ b ∨ first b = 0x23 ∧ 0x80 ≤ b ∨
    first b = 0x34 ∧ 0x80 ≤ b ∨ first b = 0x04 ∧ 0x80 ≤ b ∨ first b = 0x44 ∧ 0x80 ≤ b) := by
  decide

theorem first_large (b : Nat) (h : 256 ≤ b) : first b = 0xF1 := by
  unfold first
  iterate 10 rw [if_neg (by omega)]

theorem first_cases (b : Nat) :
    first b = 0xF0 ∧ b < 0x80 ∨ first b = 0xF1 ∧ 0x80 ≤ b ∨ first b = 0x02 ∧ 0x80 ≤ b ∨
    first b = 0x13 ∧ 0x80 ≤ b ∨ first b = 0x03 ∧ 0x80 ≤ b ∨ first b = 0x23 ∧ 0x80 ≤ b ∨
    first b = 0x34 ∧ 0x80 ≤ b ∨ first b = 0x04 ∧ 0x80 ≤ b ∨ first b = 0x44 ∧ 0x80 ≤ b := by
  by_cases h : b < 256
  · exact first_small b h
  · exact Or.inr (Or.inl ⟨first_large b (by omega), by omega⟩)

/-- The size and accept range of a multi-byte first byte. -/
theorem first_multi (b : Nat) (h : first b < 0xF0) :
    2 ≤ first b % 8 ∧ first b % 8 ≤ 4 ∧ 0x80 ≤ (acceptRanges (first b / 16)).1 ∧
      (acceptRanges (first b / 16)).2 ≤ 0xBF ∧ 0x80 ≤ b := by
  rcases first_cases b with h' | h' | h' | h' | h' | h' | h' | h' | h' <;>
    rw [h'.1] at h ⊢ <;> first
      | omega
      | exact ⟨by decide, by decide, by decide, by decide, h'.2⟩

theorem decode_cons (a : Nat) (r : GoString) :
    DecodeRuneInString (a :: r) =
      if first a ≥ 0xF0 then (if first a = 0xF0 then a else RuneError, 1)
      else if (a :: r).length < first a % 8 then (RuneError, 1)
      else if (a :: r).getD 1 0 < (acceptRanges (first a / 16)).1 ∨
          (acceptRanges (first a / 16)).2 < (a :: r).getD 1 0 then (RuneError, 1)
      else if first a % 8 ≤ 2 then ((a % 32) * 64 + (a :: r).getD 1 0 % 64, 2)
      else if (a :: r).getD 2 0 < 0x80 ∨ 0xBF < (a :: r).getD 2 0 then (RuneError, 1)
      else if first a % 8 ≤ 3 then
        ((a % 16) * 4096 + ((a :: r).getD 1 0 % 64) * 64 + (a :: r).getD 2 0 % 64, 3)
      else if (a :: r).getD 3 0 < 0x80 ∨ 0xBF < (a :: r).getD 3 0 then (RuneError, 1)
      else ((a % 8) * 262144 + ((a :: r).getD 1 0 % 64) * 4096 + ((a :: r).getD 2 0 % 64) * 64
        + (a :: r).getD 3 0 % 64, 4) := rfl

/-- The paths through `DecodeRuneInString` on a non-empty string. -/
theorem decode_elim (s : GoString) (a : Nat) (r : GoString) (hs : s = a :: r) :
    (0xF0 ≤ first a ∧ DecodeRuneInString s = (if first a = 0xF0 then a else RuneError, 1)) ∨
    (first a < 0xF0 ∧ s.length < first a % 8 ∧ DecodeRuneInString s = (RuneError, 1)) ∨
    (first a < 0xF0 ∧ first a % 8 ≤ s.length ∧
      (s.getD 1 0 < (acceptRanges (first a / 16)).1 ∨
        (acceptRanges (first a / 16)).2 < s.getD 1 0) ∧
      DecodeRuneInString s = (RuneError, 1)) ∨
    (first a < 0xF0 ∧ first a % 8 ≤ s.length ∧
      (acceptRanges (first a / 16)).1 ≤ s.getD 1 0 ∧
      s.getD 1 0 ≤ (acceptRanges (first a / 16)).2 ∧ first a % 8 = 2 ∧
      DecodeRuneInString s = ((a % 32) * 64 + s.getD 1 0 % 64, 2)) ∨
    (first a < 0xF0 ∧ first a % 8 ≤ s.length ∧ 3 ≤ first a % 8 ∧
      (acceptRanges (first a / 16)).1 ≤ s.getD 1 0 ∧
      s.getD 1 0 ≤ (acceptRanges (first a / 16)).2 ∧
      (s.getD 2 0 < 0x80 ∨ 0xBF < s.getD 2 0) ∧
      DecodeRuneInString s = (RuneError, 1)) ∨
    (first a < 0xF0 ∧ first a % 8 ≤ s.length ∧ first a % 8 = 3 ∧
      (acceptRanges (first a / 16)).1 ≤ s.getD 1 0 ∧
      s.getD 1 0 ≤ (acceptRanges (first a / 16)).2 ∧
      0x80 ≤ s.getD 2 0 ∧ s.getD 2 0 ≤ 0xBF ∧
      DecodeRuneInString s =
        ((a % 16) * 4096 + (s.getD 1 0 % 64) * 64 + s.getD 2 0 % 64, 3)) ∨
    (first a < 0xF0 ∧ first a % 8 ≤ s.length ∧ first a % 8 = 4 ∧
      (acceptRanges (first a / 16)).1 ≤ s.getD 1 0 ∧
      s.getD 1 0 ≤ (acceptRanges (first a / 16)).2 ∧
      0x80 ≤ s.getD 2 0 ∧ s.getD 2 0 ≤ 0xBF ∧
      (s.getD 3 0 < 0x80 ∨ 0xBF < s.getD 3 0) ∧
      DecodeRuneInString s = (RuneError, 1)) ∨
    (first a < 0xF0 ∧ first a % 8 ≤ s.length ∧ first a % 8 = 4 ∧
      (acceptRanges (first a / 16)).1 ≤ s.getD 1 0 ∧
      s.getD 1 0 ≤ (acceptRanges (first a / 16)).2 ∧
      0x80 ≤ s.getD 2 0 ∧ s.getD 2 0 ≤ 0xBF ∧ 0x80 ≤ s.getD 3 0 ∧ s.getD 3 0 ≤ 0xBF ∧
      DecodeRuneInString s =
        ((a % 8) * 262144 + (s.getD 1 0 % 64) * 4096 + (s.getD 2 0 % 64) * 64
          + s.getD 3 0 % 64, 4)) := by
  subst hs
  obtain ⟨d, hd⟩ : ∃ d, DecodeRuneInString (a :: r) = d := ⟨_, rfl⟩
  have hd' := hd
  rw [decode_cons] at hd'
  rw [hd]
  rcases ite_eq_elim hd' with ⟨c0, hd1⟩ | ⟨c0, hd1⟩ <;> clear hd'
  · exact Or.inl ⟨c0, hd1.symm⟩
  have hm := first_multi a (by omega)
  rcases ite_eq_elim hd1 with ⟨c1, hd2⟩ | ⟨c1, hd2⟩ <;> clear hd1
  · exact Or.inr (Or.inl ⟨by omega, c1, hd2.symm⟩)
  rcases ite_eq_elim hd2 with ⟨c2, hd3⟩ | ⟨c2, hd3⟩ <;> clear hd2
  · exact Or.inr (Or.inr (Or.inl ⟨by omega, by omega, c2, hd3.symm⟩))
  rcases ite_eq_elim hd3 with ⟨c3, hd4⟩ | ⟨c3, hd4⟩ <;> clear hd3
  · exact Or.inr (Or.inr (Or.inr (Or.inl
      ⟨by omega, by omega, by omega, by omega, by omega, hd4.symm⟩)))
  rcases ite_eq_elim hd4 with ⟨c4, hd5⟩ | ⟨c4, hd5⟩ <;> clear hd4
  · exact Or.inr (Or.inr (Or.inr (Or.inr (Or.inl
      ⟨by omega, by omega, by omega, by omega, by omega, c4, hd5.symm⟩))))
  rcases ite_eq_elim hd5 with ⟨c5, hd6⟩ | ⟨c5, hd6⟩ <;> clear hd5
  · exact Or.inr (Or.inr (Or.inr (Or.inr (Or.inr (Or.inl
      ⟨by omega, by omega, by omega, by omega, by omega, by omega, by omega, hd6.symm⟩)))))
  rcases ite_eq_elim hd6 with ⟨c6, hd7⟩ | ⟨c6, hd7⟩ <;> clear hd6
  · exact Or.inr (Or.inr (Or.inr (Or.inr (Or.inr (Or.inr (Or.inl
      ⟨by omega, by omega, by omega, by omega, by omega, by omega, by omega, c6,
        hd7.symm⟩))))))
  · exact Or.inr (Or.inr (Or.inr (Or.inr (Or.inr (Or.inr (Or.inr
      ⟨by omega, by omega, by omega, by omega, by omega, by omega, by omega, by omega,
        by omega, hd7.symm⟩))))))

theorem getD_take (s : GoString) (k j : Nat) (h : j < k) : (s.take k).getD j 0 = s.getD j 0 := by
  simp [List.getD_eq_getElem?_getD, List.getElem?_take, h]

/-- The arithmetic content of `decode_elim`: the width is one, or the width announced by
the first byte with continuation bytes behind it. -/
theorem decode_width_elim (s : GoString) (a : Nat) (r : GoString) (hs : s = a :: r) :
    (DecodeRuneInString s).2 = 1 ∨
    ((DecodeRuneInString s).2 = first a % 8 ∧ 2 ≤ first a % 8 ∧ first a % 8 ≤ 4 ∧
      first a % 8 ≤ s.length ∧ 0x80 ≤ a ∧ 0x80 ≤ s.getD 1 0 ∧
      (3 ≤ first a % 8 → 0x80 ≤ s.getD 2 0) ∧ (4 ≤ first a % 8 → 0x80 ≤ s.getD 3 0) ∧
      ¬ ((DecodeRuneInString s).1 = RuneError ∧ (DecodeRuneInString s).2 = 1)) := by
  rcases decode_elim s a r hs with ⟨c1, e⟩ | ⟨c1, c2, e⟩ | ⟨c1, c2, c3, e⟩ |
    ⟨c1, c2, c3, c4, c5, e⟩ | ⟨c1, c2, c3, c4, c5, c6, e⟩ | ⟨c1, c2, c3, c4, c5, c6, c7, e⟩ |
    ⟨c1, c2, c3, c4, c5, c6, c7, c8, e⟩ | ⟨c1, c2, c3, c4, c5, c6, c7, c8, c9, e⟩ <;>
    rw [e] <;> dsimp only <;> have hm := first_multi a <;> omega

theorem decode_width_pos (s : GoString) (hs : s ≠ []) : 1 ≤ (DecodeRuneInString s).2 := by
  cases s with
  | nil => exact absurd rfl hs
  | cons a r => rcases decode_width_elim (a :: r) a r rfl with h | h <;> omega

theorem decode_width_le (s : GoString) : (DecodeRuneInString s).2 ≤ s.length := by
  cases s with
  | nil => simp [DecodeRuneInString]
  | cons a r =>
    have hl : 1 ≤ (a :: r).length := by simp
    rcases decode_width_elim (a :: r) a r rfl with h | h <;> omega

/-- Inside a multi-byte rune every byte after the first is a continuation byte. -/
theorem decode_continuation (s : GoString) (j : Nat) (h1 : 1 ≤ j)
    (h2 : j < (DecodeRuneInString s).2) : 0x80 ≤ s.getD j 0 := by
  cases s with
  | nil => simp [DecodeRuneInString] at h2
  | cons a r =>
    rcases decode_width_elim (a :: r) a r rfl with h | h
    · omega
    · have : j = 1 ∨ j = 2 ∨ j = 3 := by omega
      rcases this with rfl | rfl | rfl <;> omega

set_option maxRecDepth 10000 in
/-- Decoding looks only at the bytes of the rune it returns. -/
theorem decode_take (s : GoString) (k : Nat) (hk : 1 ≤ k)
    (h : (DecodeRuneInString s).2 ≤ k) :
    DecodeRuneInString (s.take k) = DecodeRuneInString s := by
  cases s with
  | nil => simp
  | cons a r =>
    obtain ⟨k, rfl⟩ : ∃ k', k = k' + 1 := ⟨k - 1, by omega⟩
    have g1 : 1 < k + 1 → ((a :: r).take (k + 1)).getD 1 0 = (a :: r).getD 1 0 :=
      getD_take _ _ _
    have g2 : 2 < k + 1 → ((a :: r).take (k + 1)).getD 2 0 = (a :: r).getD 2 0 :=
      getD_take _ _ _
    have g3 : 3 < k + 1 → ((a :: r).take (k + 1)).getD 3 0 = (a :: r).getD 3 0 :=
      getD_take _ _ _
    have g0 : ((a :: r).take (k + 1)).length = min (k + 1) (a :: r).length :=
      List.length_take _ _
    have hT : (a :: r).take (k + 1) = a :: r.take k := rfl
    generalize (a :: r).take (k + 1) = T at *
    have hm := first_multi a
    rcases decode_elim (a :: r) a r rfl with ⟨c1, e⟩ | ⟨c1, c2, e⟩ | ⟨c1, c2, c3, e⟩ |
      ⟨c1, c2, c3, c4, c5, e⟩ | ⟨c1, c2, c3, c4, c5, c6, e⟩ |
      ⟨c1, c2, c3, c4, c5, c6, c7, e⟩ | ⟨c1, c2, c3, c4, c5, c6, c7, c8, e⟩ |
      ⟨c1, c2, c3, c4, c5, c6, c7, c8, c9, e⟩ <;>
    rcases decode_elim T a (r.take k) hT with ⟨d1, f⟩ | ⟨d1, d2, f⟩ | ⟨d1, d2, d3, f⟩ |
      ⟨d1, d2, d3, d4, d5, f⟩ | ⟨d1, d2, d3, d4, d5, d6, f⟩ |
      ⟨d1, d2, d3, d4, d5, d6, d7, f⟩ | ⟨d1, d2, d3, d4, d5, d6, d7, d8, f⟩ |
      ⟨d1, d2, d3, d4, d5, d6, d7, d8, d9, f⟩ <;>
    rw [e] at h ⊢ <;> rw [f] <;> dsimp only at h <;> first
      | (with_reducible rfl)
      | (exfalso; omega)
      | rw [g1 (by omega), g2 (by omega), g3 (by omega)]
      | rw [g1 (by omega), g2 (by omega)]
      | rw [g1 (by omega)]

theorem first_ascii (a : Nat) :
    (a < 0x80 → first a = 0xF0) ∧ (0x80 ≤ a → first a ≠ 0xF0) ∧
      (first a < 0xF0 ∨ first a = 0xF0 ∨ first a = 0xF1) := by
  have fc := first_cases a
  omega

theorem runeWidth_cons (a : Nat) (r : GoString) :
    runeWidth (a :: r) =
      if a < 0x80 then 1
      else if first a = 0xF1 then 1
      else if first a % 8 > (a :: r).length then 1
      else if (a :: r).getD 1 0 < (acceptRanges (first a / 16)).1 ∨
          (acceptRanges (first a / 16)).2 < (a :: r).getD 1 0 then 1
      else if first a % 8 = 2 then first a % 8
      else if (a :: r).getD 2 0 < 0x80 ∨ 0xBF < (a :: r).getD 2 0 then 1
      else if first a % 8 = 3 then first a % 8
      else if (a :: r).getD 3 0 < 0x80 ∨ 0xBF < (a :: r).getD 3 0 then 1
      else first a % 8 := rfl

/-- The width `RuneCountInString` advances by is the width `DecodeRuneInString` returns. -/
theorem runeWidth_eq_decode (s : GoString) : runeWidth s = (DecodeRuneInString s).2 := by
  cases s with
  | nil => rfl
  | cons a r =>
    obtain ⟨w, hw⟩ : ∃ w, runeWidth (a :: r) = w := ⟨_, rfl⟩
    rw [hw]
    rw [runeWidth_cons] at hw
    have fc := first_ascii a
    have hm := first_multi a
    rcases ite_eq_elim hw with ⟨b0, hw1⟩ | ⟨b0, hw1⟩ <;> clear hw
    · rw [decode_cons, if_pos (by omega), ← hw1]
    rcases ite_eq_elim hw1 with ⟨b1, hw2⟩ | ⟨b1, hw2⟩ <;> clear hw1
    · rw [decode_cons, if_pos (by omega), ← hw2]
    have hlt : ¬ first a ≥ 0xF0 := by omega
    have hsz : 2 ≤ first a % 8 ∧ first a % 8 ≤ 4 := by omega
    clear fc hm
    rcases ite_eq_elim hw2 with ⟨b2, hw3⟩ | ⟨b2, hw3⟩ <;> clear hw2
    · rw [decode_cons, if_neg hlt, if_pos (by omega), ← hw3]
    rcases ite_eq_elim hw3 with ⟨b3, hw4⟩ | ⟨b3, hw4⟩ <;> clear hw3
    · rw [decode_cons, if_neg hlt, if_neg (by omega), if_pos b3, ← hw4]
    rcases ite_eq_elim hw4 with ⟨b4, hw5⟩ | ⟨b4, hw5⟩ <;> clear hw4
    · rw [decode_cons, if_neg hlt, if_neg (by omega), if_neg b3, if_pos (by omega), ← hw5]
      exact b4
    rcases ite_eq_elim hw5 with ⟨b5, hw6⟩ | ⟨b5, hw6⟩ <;> clear hw5
    · rw [decode_cons, if_neg hlt, if_neg (by omega), if_neg b3, if_neg (by omega), if_pos b5,
        ← hw6]
    rcases ite_eq_elim hw6 with ⟨b6, hw7⟩ | ⟨b6, hw7⟩ <;> clear hw6
    · rw [decode_cons, if_neg hlt, if_neg (by omega), if_neg b3, if_neg (by omega), if_neg b5,
        if_pos (by omega), ← hw7]
      exact b6
    rcases ite_eq_elim hw7 with ⟨b7, hw8⟩ | ⟨b7, hw8⟩ <;> clear hw7
    · rw [decode_cons, if_neg hlt, if_neg (by omega), if_neg b3, if_neg (by omega), if_neg b5,
        if_neg (by omega), if_pos b7, ← hw8]
    · rw [decode_cons, if_neg hlt, if_neg (by omega), if_neg b3, if_neg (by omega), if_neg b5,
        if_neg (by omega), if_neg b7, ← hw8]
      show first a % 8 = 4
      omega

/-! ## Rune counting, validity and rune boundaries -/

/-- The width of the first rune of `s`. -/
theorem width_bounds (s : GoString) (hs : s ≠ []) :
    1 ≤ (DecodeRuneInString s).2 ∧ (DecodeRuneInString s).2 ≤ s.length :=
  ⟨decode_width_pos s hs, decode_width_le s⟩

theorem runeCountLoop_fuel (f1 : Nat) : ∀ (f2 : Nat) (s : GoString),
    s.length ≤ f1 → s.length ≤ f2 → runeCountLoop f1 s = runeCountLoop f2 s := by
  induction f1 with
  | zero =>
    intro f2 s h1 _
    have : s = [] := List.length_eq_zero.mp (by omega)
    subst this
    cases f2 <;> rfl
  | succ n ih =>
    intro f2 s h1 h2
    cases s with
    | nil => cases f2 <;> rfl
    | cons a r =>
      cases f2 with
      | zero => simp at h2
      | succ m =>
        have hw := width_bounds (a :: r) (by simp)
        rw [← runeWidth_eq_decode] at hw
        simp only [runeCountLoop]
        rw [ih m]
        · simp only [List.length_drop, List.length_cons] at *; omega
        · simp only [List.length_drop, List.length_cons] at *; omega

theorem runeCount_nil : RuneCountInString [] = 0 := rfl

/-- One iteration of `RuneCountInString`. -/
theorem runeCount_step (s : GoString) (hs : s ≠ []) :
    RuneCountInString s = 1 + RuneCountInString (s.drop (DecodeRuneInString s).2) := by
  cases s with
  | nil => exact absurd rfl hs
  | cons a r =>
    have hw := width_bounds (a :: r) hs
    unfold RuneCountInString
    rw [← runeWidth_eq_decode] at hw ⊢
    show 1 + runeCountLoop r.length _ = _
    rw [runeCountLoop_fuel r.length ((a :: r).drop (runeWidth (a :: r))).length]
    · simp only [List.length_drop, List.length_cons] at *; omega
    · exact le_refl _

theorem runeCount_pos (s : GoString) (hs : s ≠ []) : 1 ≤ RuneCountInString s := by
  rw [runeCount_step s hs]; omega

theorem validLoop_fuel (f1 : Nat) : ∀ (f2 : Nat) (s : GoString),
    s.length ≤ f1 → s.length ≤ f2 → validLoop f1 s = validLoop f2 s := by
  induction f1 with
  | zero =>
    intro f2 s h1 _
    have : s = [] := List.length_eq_zero.mp (by omega)
    subst this
    cases f2 <;> rfl
  | succ n ih =>
    intro f2 s h1 h2
    cases s with
    | nil => cases f2 <;> rfl
    | cons a r =>
      cases f2 with
      | zero => simp at h2
      | succ m =>
        have hw := width_bounds (a :: r) (by simp)
        simp only [validLoop]
        rw [ih m]
        · simp only [List.length_drop, List.length_cons] at *; omega
        · simp only [List.length_drop, List.length_cons] at *; omega

theorem valid_nil : ValidString [] = true := rfl

/-- One iteration of `ValidString`. -/
theorem valid_step (s : GoString) (hs : s ≠ []) :
    ValidString s = (if (DecodeRuneInString s).1 = RuneError ∧ (DecodeRuneInString s).2 = 1
      then false else ValidString (s.drop (DecodeRuneInString s).2)) := by
  cases s with
  | nil => exact absurd rfl hs
  | cons a r =>
    have hw := width_bounds (a :: r) hs
    unfold ValidString
    show (if _ then false else validLoop r.length _) = _
    rw [validLoop_fuel r.length ((a :: r).drop (DecodeRuneInString (a :: r)).2).length]
    · simp only [List.length_drop, List.length_cons] at *; omega
    · exact le_refl _

theorem runeByteIndexLoop_shift (n : Nat) : ∀ (s : GoString) (i : Nat), i ≤ s.length →
    runeByteIndexLoop s n i = i + runeByteIndexLoop (s.drop i) n 0 := by
  induction n with
  | zero => intro s i _; rfl
  | succ n ih =>
    intro s i hi
    simp only [runeByteIndexLoop, List.length_drop, List.drop_zero, Nat.zero_add]
    by_cases h : i < s.length
    · have hne : s.drop i ≠ [] := by
        intro h0
        have := congrArg List.length h0
        simp only [List.length_drop, List.length_nil] at this
        omega
      have hw := width_bounds (s.drop i) hne
      simp only [List.length_drop] at hw
      rw [if_pos h, if_pos (by omega), ih s _ (by omega),
        ih (s.drop i) ((DecodeRuneInString (s.drop i)).2)
          (by simp only [List.length_drop]; omega),
        List.drop_drop, Nat.add_assoc]
    · rw [if_neg h, if_neg (by omega)]
      exact (Nat.add_zero i).symm

/-- One iteration of `runeByteIndex`. -/
theorem runeByteIndex_step (s : GoString) (n : Nat) (hs : s ≠ []) :
    runeByteIndex s (n + 1) =
      (DecodeRuneInString s).2 + runeByteIndex (s.drop (DecodeRuneInString s).2) n := by
  have hl : 0 < s.length := List.length_pos.mpr hs
  unfold runeByteIndex
  simp only [runeByteIndexLoop, List.drop_zero, Nat.zero_add]
  rw [if_pos hl, runeByteIndexLoop_shift n s _ (decode_width_le s)]

theorem runeByteIndex_nil (n : Nat) : runeByteIndex [] n = 0 := by
  cases n <;> rfl

theorem runeByteIndex_zero (s : GoString) : runeByteIndex s 0 = 0 := rfl

theorem Boundary.le_length {s : GoString} {c : Nat} (h : Boundary s c) : c ≤ s.length := by
  induction h with
  | zero s => exact Nat.zero_le _
  | step s c hs _ ih =>
    have hw := width_bounds s hs
    simp only [List.length_drop] at ih
    omega

/-- The byte index `runeByteIndex` returns is a rune boundary. -/
theorem boundary_runeByteIndex (n : Nat) : ∀ s : GoString, Boundary s (runeByteIndex s n) := by
  induction n with
  | zero => intro s; exact Boundary.zero s
  | succ n ih =>
    intro s
    by_cases hs : s = []
    · subst hs; rw [runeByteIndex_nil]; exact Boundary.zero _
    · rw [runeByteIndex_step s n hs]
      exact Boundary.step s _ hs (ih _)

/-- A prefix that holds the whole first rune starts with that rune. -/
theorem decode_take_add (s : GoString) (c : Nat) (hs : s ≠ []) :
    DecodeRuneInString (s.take ((DecodeRuneInString s).2 + c)) = DecodeRuneInString s := by
  have hw := width_bounds s hs
  exact decode_take s _ (by omega) (by omega)

theorem take_add_ne_nil (s : GoString) (c : Nat) (hs : s ≠ []) :
    s.take ((DecodeRuneInString s).2 + c) ≠ [] := by
  have hw := width_bounds s hs
  intro h0
  have := congrArg List.length h0
  simp only [List.length_take, List.length_nil] at this
  omega

theorem drop_take_add (s : GoString) (w c : Nat) :
    (s.take (w + c)).drop w = (s.drop w).take c := by
  rw [List.drop_take, Nat.add_sub_cancel_left]

theorem runeCount_take_step (s : GoString) (c : Nat) (hs : s ≠ []) :
    RuneCountInString (s.take ((DecodeRuneInString s).2 + c)) =
      1 + RuneCountInString ((s.drop (DecodeRuneInString s).2).take c) := by
  rw [runeCount_step _ (take_add_ne_nil s c hs), decode_take_add s c hs, drop_take_add]

/-- Cutting at a rune boundary splits the rune count. -/
theorem runeCount_split {s : GoString} {c : Nat} (h : Boundary s c) :
    RuneCountInString (s.take c) + RuneCountInString (s.drop c) = RuneCountInString s := by
  induction h with
  | zero s => simp [runeCount_nil]
  | step s c hs _ ih =>
    rw [runeCount_take_step s c hs, runeCount_step s hs, ← ih, List.drop_drop]
    omega

/-- The first `n` runes of a string of at least `n` runes are `n` runes. -/
theorem runeCount_take_runeByteIndex (n : Nat) : ∀ s : GoString, n ≤ RuneCountInString s →
    RuneCountInString (s.take (runeByteIndex s n)) = n := by
  induction n with
  | zero => intro s _; simp [runeByteIndex_zero, runeCount_nil]
  | succ n ih =>
    intro s h
    have hs : s ≠ [] := by
      rintro rfl
      rw [runeCount_nil] at h
      omega
    rw [runeCount_step s hs] at h
    rw [runeByteIndex_step s n hs, runeCount_take_step s _ hs,
      ih (s.drop (DecodeRuneInString s).2) (by omega), Nat.add_comm]

theorem decode_ascii (a : Nat) (r : GoString) (h : a < 0x80) :
    DecodeRuneInString (a :: r) = (a, 1) := by
  have fc := first_ascii a
  rw [decode_cons, if_pos (by omega), if_pos (by omega)]

theorem getD_drop (s : GoString) (w j : Nat) : (s.drop w).getD j 0 = s.getD (w + j) 0 := by
  simp [List.getD_eq_getElem?_getD, List.getElem?_drop]

/-- An ASCII byte is never inside a multi-byte rune: its offset is a rune boundary. -/
theorem boundary_of_ascii (c : Nat) : ∀ s : GoString, c < s.length → s.getD c 0 < 0x80 →
    Boundary s c := by
  induction c using Nat.strong_induction_on with
  | _ c ih =>
    intro s hc hb
    by_cases h0 : c = 0
    · subst h0; exact Boundary.zero s
    · have hs : s ≠ [] := by rintro rfl; simp at hc
      have hw := width_bounds s hs
      have hle : (DecodeRuneInString s).2 ≤ c := by
        by_contra hlt
        have := decode_continuation s c (by omega) (by omega)
        omega
      have hb' : (s.drop (DecodeRuneInString s).2).getD (c - (DecodeRuneInString s).2) 0
          < 0x80 := by
        rw [getD_drop, Nat.add_sub_cancel' hle]; exact hb
      have := Boundary.step s (c - (DecodeRuneInString s).2) hs
        (ih _ (by omega) _ (by simp only [List.length_drop]; omega) hb')
      rwa [Nat.add_sub_cancel' hle] at this

/-- Decoding a string from its start ends exactly at its end. -/
theorem boundary_length (n : Nat) : ∀ s : GoString, s.length = n → Boundary s s.length := by
  induction n using Nat.strong_induction_on with
  | _ n ih =>
    intro s hn
    by_cases hs : s = []
    · subst hs; exact Boundary.zero _
    · have hw := width_bounds s hs
      have := Boundary.step s _ hs
        (ih (s.drop (DecodeRuneInString s).2).length
          (by simp only [List.length_drop]; omega) _ rfl)
      simp only [List.length_drop] at this
      rwa [Nat.add_sub_cancel' hw.2] at this

theorem runeCount_le_length (n : Nat) : ∀ s : GoString, s.length = n →
    RuneCountInString s ≤ s.length := by
  induction n using Nat.strong_induction_on with
  | _ n ih =>
    intro s hn
    by_cases hs : s = []
    · subst hs; simp [runeCount_nil]
    · have hw := width_bounds s hs
      have := ih (s.drop (DecodeRuneInString s).2).length
          (by simp only [List.length_drop]; omega) _ rfl
      rw [runeCount_step s hs]
      simp only [List.length_drop] at this
      omega

/-- Cutting a valid string at a rune boundary gives two valid strings. -/
theorem valid_split {s : GoString} {c : Nat} (h : Boundary s c) (hv : ValidString s = true) :
    ValidString (s.take c) = true ∧ ValidString (s.drop c) = true := by
  induction h with
  | zero s => exact ⟨by simp [valid_nil], by simpa using hv⟩
  | step s c hs _ ih =>
    rw [valid_step s hs] at hv
    by_cases hbad : (DecodeRuneInString s).1 = RuneError ∧ (DecodeRuneInString s).2 = 1
    · rw [if_pos hbad] at hv; exact absurd hv (by decide)
    · rw [if_neg hbad] at hv
      obtain ⟨h1, h2⟩ := ih hv
      refine ⟨?_, ?_⟩
      · rw [valid_step _ (take_add_ne_nil s c hs), decode_take_add s c hs, if_neg hbad,
          drop_take_add]
        exact h1
      · rw [List.drop_drop] at h2; exact h2

/-- Removing leading line breaks keeps a valid string valid. -/
theorem valid_trimLeft (s : GoString) (hv : ValidString s = true) :
    ValidString (TrimLeft s [10]) = true := by
  induction s with
  | nil => exact hv
  | cons a r ih =>
    unfold TrimLeft
    rw [List.dropWhile_cons]
    by_cases ha : a = 10
    · subst ha
      rw [if_pos (by simp)]
      rw [valid_step _ (by simp), decode_ascii 10 r (by decide)] at hv
      rw [if_neg (by decide)] at hv
      exact ih hv
    · rw [if_neg (by simpa using ha)]
      exact hv

/-! ## Facts about `LastIndex` and `TrimLeft` -/

/-- What the scan of `LastIndex` returns: `best` when `substr` occurs nowhere in the
remaining suffix, otherwise the offset of its last occurrence there. -/
theorem lastIndexScan_spec (substr : GoString) : ∀ (l : GoString) (pos : Nat) (best : Int),
    (lastIndexScan substr l pos best = best ∧
      ∀ i, i ≤ l.length → substr.isPrefixOf (l.drop i) = false) ∨
    (∃ i, i ≤ l.length ∧ lastIndexScan substr l pos best = ((pos + i : Nat) : Int) ∧
      substr.isPrefixOf (l.drop i) = true ∧
      ∀ j, i < j → j ≤ l.length → substr.isPrefixOf (l.drop j) = false) := by
  intro l
  induction l with
  | nil =>
    intro pos best
    by_cases h : substr = []
    · right
      refine ⟨0, le_refl _, by simp [lastIndexScan, h], by simp [h], ?_⟩
      intro j hj hj'
      simp at hj'
      omega
    · left
      refine ⟨by simp [lastIndexScan, h], ?_⟩
      intro i _
      cases substr with
      | nil => exact absurd rfl h
      | cons x xs => simp [List.isPrefixOf]
  | cons c rest ih =>
    intro pos best
    simp only [lastIndexScan]
    rcases ih (pos + 1) (if substr.isPrefixOf (c :: rest) then (pos : Int) else best) with
      ⟨h1, h2⟩ | ⟨i, hi, h1, h2, h3⟩
    · by_cases hm : substr.isPrefixOf (c :: rest) = true
      · right
        refine ⟨0, Nat.zero_le _, ?_, by simpa using hm, ?_⟩
        · rw [h1, if_pos hm]; rfl
        · intro j hj hj'
          obtain ⟨j', rfl⟩ : ∃ j', j = j' + 1 := ⟨j - 1, by omega⟩
          exact h2 j' (by simpa using hj')
      · left
        refine ⟨by rw [h1, if_neg hm], ?_⟩
        intro i hi
        cases i with
        | zero => rw [List.drop_zero]; exact Bool.eq_false_iff.mpr hm
        | succ i' => exact h2 i' (by simpa using hi)
    · right
      refine ⟨i + 1, by simpa using hi, ?_, by simpa using h2, ?_⟩
      · rw [h1]; congr 1; omega
      · intro j hj hj'
        obtain ⟨j', rfl⟩ : ∃ j', j = j' + 1 := ⟨j - 1, by omega⟩
        exact h3 j' (by omega) (by simpa using hj')

/-- The function `LastIndex` returns -1 when `substr` does not occur in `s`, and otherwise
the offset of the last occurrence. -/
theorem lastIndex_spec (s substr : GoString) :
    (LastIndex s substr = -1 ∧ ∀ i, i ≤ s.length → substr.isPrefixOf (s.drop i) = false) ∨
    (∃ i, i ≤ s.length ∧ LastIndex s substr = (i : Int) ∧
      substr.isPrefixOf (s.drop i) = true ∧
      ∀ j, i < j → j ≤ s.length → substr.isPrefixOf (s.drop j) = false) := by
  unfold LastIndex
  rcases lastIndexScan_spec substr s 0 (-1) with h | ⟨i, hi, h1, h2, h3⟩
  · exact Or.inl h
  · exact Or.inr ⟨i, hi, by rw [h1, Nat.zero_add], h2, h3⟩

/-- Where a string starting with a line break occurs, there is a line break. -/
theorem getD_of_isPrefixOf (s rest : GoString) (i : Nat)
    (h : (10 :: rest).isPrefixOf (s.drop i) = true) : i < s.length ∧ s.getD i 0 = 10 := by
  cases hd : s.drop i with
  | nil => rw [hd] at h; simp [List.isPrefixOf] at h
  | cons x xs =>
    rw [hd] at h
    simp only [List.isPrefixOf, Bool.and_eq_true, beq_iff_eq] at h
    have hlen : i < s.length := by
      by_contra hge
      rw [List.drop_of_length_le (by omega)] at hd
      exact absurd hd (by simp)
    refine ⟨hlen, ?_⟩
    have := getD_drop s i 0
    rw [hd] at this
    simp only [Nat.add_zero] at this
    rw [← this]
    simp [h.1]

/-! ## The cut chosen by one iteration of `sendLongMessage` -/

/-- The byte limit of a text of more than `maxLen` runes lies within the text and spans
at least `maxLen` bytes. -/
theorem byteLimit_bounds (text : GoString) (h : maxLen < RuneCountInString text) :
    maxLen ≤ runeByteIndex text maxLen ∧ runeByteIndex text maxLen ≤ text.length := by
  have hb := (boundary_runeByteIndex maxLen text).le_length
  have hc := runeCount_take_runeByteIndex maxLen text (by omega)
  have hl := runeCount_le_length _ (text.take (runeByteIndex text maxLen)) rfl
  rw [hc, List.length_take] at hl
  omega

/-- The cut is the byte limit or a line break in the second half of the window. -/
theorem cutIndex_spec (text : GoString) (h : maxLen < RuneCountInString text) :
    ∃ c : Nat, cutIndex text = (c : Int) ∧ runeByteIndex text maxLen / 2 ≤ c ∧
      (c = runeByteIndex text maxLen ∨
        (c < runeByteIndex text maxLen ∧ text.getD c 0 = 10)) := by
  have hbl := byteLimit_bounds text h
  have hlen : (text.take (runeByteIndex text maxLen)).length = runeByteIndex text maxLen := by
    rw [List.length_take]; omega
  have hnl : ∀ (rest : GoString) (i : Nat),
      (10 :: rest).isPrefixOf ((text.take (runeByteIndex text maxLen)).drop i) = true →
      i < runeByteIndex text maxLen ∧ text.getD i 0 = 10 := by
    intro rest i hi
    obtain ⟨h1, h2⟩ := getD_of_isPrefixOf _ rest i hi
    rw [hlen] at h1
    rw [getD_take _ _ _ h1] at h2
    exact ⟨h1, h2⟩
  unfold cutIndex
  simp only []
  by_cases hd :
      LastIndex (text.take (runeByteIndex text maxLen)) [10, 10] <
        ((runeByteIndex text maxLen / 2 : Nat) : Int)
  · rw [if_pos hd]
    by_cases hs :
        LastIndex (text.take (runeByteIndex text maxLen)) [10] <
          ((runeByteIndex text maxLen / 2 : Nat) : Int)
    · rw [if_pos hs]
      exact ⟨_, rfl, by omega, Or.inl rfl⟩
    · rw [if_neg hs]
      rcases lastIndex_spec (text.take (runeByteIndex text maxLen)) [10] with
        ⟨h1, _⟩ | ⟨i, _, h1, h2, _⟩
      · rw [h1] at hs; omega
      · rw [h1] at hs ⊢
        exact ⟨i, rfl, by omega, Or.inr (hnl _ i h2)⟩
  · rw [if_neg hd, if_neg hd]
    rcases lastIndex_spec (text.take (runeByteIndex text maxLen)) [10, 10] with
      ⟨h1, _⟩ | ⟨i, _, h1, h2, _⟩
    · rw [h1] at hd; omega
    · rw [h1] at hd ⊢
      exact ⟨i, rfl, by omega, Or.inr (hnl _ i h2)⟩

theorem trimLeft_length_le (s cutset : GoString) : (TrimLeft s cutset).length ≤ s.length := by
  unfold TrimLeft
  exact (List.dropWhile_sublist _).length_le

/-- What one iteration of the loop does with a text of more than `maxLen` runes: the chunk
is a non-empty prefix of at most `maxLen` runes, cut on a rune boundary. -/
theorem cut_facts (text : GoString) (h : maxLen < RuneCountInString text) :
    1 ≤ (cutIndex text).toNat ∧ (cutIndex text).toNat ≤ text.length ∧
    RuneCountInString (text.take (cutIndex text).toNat) ≤ maxLen ∧
    Boundary text (cutIndex text).toNat ∧
    (TrimLeft (text.drop (cutIndex text).toNat) [10]).length < text.length := by
  have hbl := byteLimit_bounds text h
  obtain ⟨c, hc, hhalf, hcase⟩ := cutIndex_spec text h
  rw [hc, Int.toNat_ofNat]
  have hml : maxLen = 4096 := rfl
  have hc1 : 1 ≤ c := by omega
  have hcl : c ≤ text.length := by omega
  have hwin := runeCount_take_runeByteIndex maxLen text (by omega)
  have htt : (text.take (runeByteIndex text maxLen)).take c = text.take c := by
    rw [List.take_take, Nat.min_eq_left (by omega)]
  have hlen : (text.take (runeByteIndex text maxLen)).length = runeByteIndex text maxLen := by
    rw [List.length_take]; omega
  refine ⟨hc1, hcl, ?_, ?_, ?_⟩
  · have hB : Boundary (text.take (runeByteIndex text maxLen)) c := by
      rcases hcase with rfl | ⟨h1, h2⟩
      · have := boundary_length _ (text.take (runeByteIndex text maxLen)) rfl
        rwa [hlen] at this
      · exact boundary_of_ascii c _ (by omega)
          (by rw [getD_take _ _ _ h1, h2]; decide)
    have := runeCount_split hB
    rw [htt, hwin] at this
    omega
  · rcases hcase with rfl | ⟨h1, h2⟩
    · exact boundary_runeByteIndex maxLen text
    · exact boundary_of_ascii c text (by omega) (by rw [h2]; decide)
  · have := trimLeft_length_le (text.drop c) [10]
    rw [List.length_drop] at this
    omega

/-! ## The loop of `sendLongMessage` -/

/-- One iteration of the loop on a text of more than `maxLen` runes. -/
theorem sendLoop_step (replyErr : Nat → Option GoString) (fuel k : Nat) (text : GoString)
    (h : maxLen < RuneCountInString text) :
    sendLoop replyErr (fuel + 1) k text =
      match replyErr k with
      | some err => some ([text.take (cutIndex text).toNat], some err)
      | none =>
        (sendLoop replyErr fuel (k + 1)
          (TrimLeft (text.drop (cutIndex text).toNat) [10])).map
          (fun r => (text.take (cutIndex text).toNat :: r.1, r.2)) := by
  have hne : text.length > 0 := by
    cases text with
    | nil => rw [runeCount_nil] at h; omega
    | cons a r => simp
  simp only [sendLoop]
  rw [if_pos hne, if_neg (by omega)]

/-- The last iteration of the loop: a non-empty text of at most `maxLen` runes. -/
theorem sendLoop_last (replyErr : Nat → Option GoString) (fuel k : Nat) (text : GoString)
    (hne : text ≠ []) (h : RuneCountInString text ≤ maxLen) :
    sendLoop replyErr (fuel + 1) k text = some ([text], replyErr k) := by
  simp only [sendLoop]
  rw [if_pos (List.length_pos.mpr hne), if_pos h]

theorem sendLoop_nil (replyErr : Nat → Option GoString) (fuel k : Nat) :
    sendLoop replyErr fuel k [] = some ([], none) := by
  cases fuel <;> simp [sendLoop]

/-- The loop returns, and every chunk it hands to `c.Reply` satisfies `Q`, when `Q` holds
for the last chunk and for every cut chunk of a text satisfying the invariant `I`, and
the remainder satisfies `I` again. -/
theorem sendLoop_chunks (replyErr : Nat → Option GoString) (Q I : GoString → Prop)
    (hfin : ∀ t, I t → RuneCountInString t ≤ maxLen → Q t)
    (hcut : ∀ t, I t → maxLen < RuneCountInString t →
      Q (t.take (cutIndex t).toNat) ∧ I (TrimLeft (t.drop (cutIndex t).toNat) [10])) :
    ∀ (fuel k : Nat) (text : GoString), I text → text.length ≤ fuel →
      ∃ res, sendLoop replyErr fuel k text = some res ∧ ∀ c ∈ res.1, Q c := by
  intro fuel
  induction fuel with
  | zero =>
    intro k text _ hl
    have : text = [] := List.length_eq_zero.mp (by omega)
    subst this
    exact ⟨([], none), sendLoop_nil _ _ _, by simp⟩
  | succ fuel ih =>
    intro k text hI hl
    by_cases hne : text = []
    · subst hne
      exact ⟨([], none), sendLoop_nil _ _ _, by simp⟩
    by_cases hr : RuneCountInString text ≤ maxLen
    · refine ⟨([text], replyErr k), sendLoop_last _ _ _ _ hne hr, ?_⟩
      intro c hc
      simp only [List.mem_singleton] at hc
      subst hc
      exact hfin _ hI hr
    · have hgt : maxLen < RuneCountInString text := by omega
      obtain ⟨hq, hi⟩ := hcut text hI hgt
      have hf := cut_facts text hgt
      rw [sendLoop_step _ _ _ _ hgt]
      cases hk : replyErr k with
      | some err =>
        refine ⟨_, rfl, ?_⟩
        intro c hc
        simp only [List.mem_singleton] at hc
        subst hc
        exact hq
      | none =>
        obtain ⟨res, hres, hall⟩ := ih (k + 1) _ hi (by omega)
        refine ⟨_, by simp only [hres, Option.map_some']; rfl, ?_⟩
        intro c hc
        simp only [List.mem_cons] at hc
        rcases hc with rfl | hc
        · exact hq
        · exact hall c hc

/-- The method `sendLongMessage` returns, and every chunk it hands to `c.Reply`
satisfies `Q`, under the conditions of `sendLoop_chunks`. -/
theorem sendLongMessage_chunks (replyErr : Nat → Option GoString) (Q I : GoString → Prop)
    (hfin : ∀ t, I t → RuneCountInString t ≤ maxLen → Q t)
    (hcut : ∀ t, I t → maxLen < RuneCountInString t →
      Q (t.take (cutIndex t).toNat) ∧ I (TrimLeft (t.drop (cutIndex t).toNat) [10]))
    (text : GoString) (hI : I text) :
    ∃ res, sendLongMessage replyErr text = some res ∧ ∀ c ∈ res.1, Q c := by
  unfold sendLongMessage
  by_cases hr : RuneCountInString text ≤ maxLen
  · rw [if_pos hr]
    refine ⟨_, rfl, ?_⟩
    intro c hc
    simp only [List.mem_singleton] at hc
    subst hc
    exact hfin _ hI hr
  · rw [if_neg hr]
    exact sendLoop_chunks replyErr Q I hfin hcut _ _ _ hI (le_refl _)

/-- A non-empty text makes the loop hand at least one chunk to `c.Reply`. -/
theorem sendLoop_nonempty (replyErr : Nat → Option GoString) (fuel k : Nat) (text : GoString)
    (hne : text ≠ []) (res : List GoString × Option GoString)
    (h : sendLoop replyErr fuel k text = some res) : 1 ≤ res.1.length := by
  cases fuel with
  | zero =>
    simp only [sendLoop] at h
    rw [if_pos (List.length_pos.mpr hne)] at h
    exact absurd h (by simp)
  | succ fuel =>
    by_cases hr : RuneCountInString text ≤ maxLen
    · rw [sendLoop_last _ _ _ _ hne hr] at h
      injection h with h
      subst h
      simp
    · rw [sendLoop_step _ _ _ _ (by omega)] at h
      cases hk : replyErr k with
      | some err =>
        rw [hk] at h
        injection h with h
        subst h
        simp
      | none =>
        rw [hk] at h
        cases hrec : sendLoop replyErr fuel (k + 1)
            (TrimLeft (text.drop (cutIndex text).toNat) [10]) with
        | none => rw [hrec] at h; exact absurd h (by simp)
        | some r =>
          rw [hrec] at h
          simp only [Option.map_some'] at h
          injection h with h
          subst h
          simp

/-! ## Chunk sizes, reconstruction and validity -/

theorem trimLeft_eq_nil_iff (s : GoString) : TrimLeft s [10] = [] ↔ ∀ b ∈ s, b = 10 := by
  unfold TrimLeft
  rw [List.dropWhile_eq_nil_iff]
  simp

/-- Every chunk has at most `maxLen` runes; a text of more than `maxLen` runes whose first
`c.Reply` succeeds gives at least two chunks exactly when a byte that is not a line break
follows the first cut. -/
theorem sendLongMessage_runes (replyErr : Nat → Option GoString) (text : GoString) :
    ∃ res, sendLongMessage replyErr text = some res ∧
      (∀ c ∈ res.1, RuneCountInString c ≤ 4096) ∧
      (4096 < RuneCountInString text → replyErr 0 = none →
        (2 ≤ res.1.length ↔ ∃ b ∈ text.drop (cutIndex text).toNat, b ≠ 10)) := by
  obtain ⟨res, hres, hall⟩ := sendLongMessage_chunks replyErr
    (fun c => RuneCountInString c ≤ 4096) (fun _ => True)
    (fun t _ h => h) (fun t _ h => ⟨(cut_facts t h).2.2.1, trivial⟩) text trivial
  refine ⟨res, hres, hall, ?_⟩
  intro hgt h0
  have hgt' : maxLen < RuneCountInString text := hgt
  have hf := cut_facts text hgt'
  unfold sendLongMessage at hres
  rw [if_neg (by omega)] at hres
  obtain ⟨f, hf'⟩ : ∃ f, text.length = f + 1 := ⟨text.length - 1, by omega⟩
  rw [hf', sendLoop_step _ _ _ _ hgt', h0] at hres
  simp only [] at hres
  cases hrec : sendLoop replyErr f (0 + 1)
      (TrimLeft (text.drop (cutIndex text).toNat) [10]) with
  | none => rw [hrec] at hres; exact absurd hres (by simp)
  | some r =>
    rw [hrec] at hres
    simp only [Option.map_some'] at hres
    injection hres with hres
    subst hres
    simp only [List.length_cons]
    by_cases hnil : TrimLeft (text.drop (cutIndex text).toNat) [10] = []
    · rw [hnil, sendLoop_nil] at hrec
      injection hrec with hrec
      subst hrec
      have := (trimLeft_eq_nil_iff _).mp hnil
      constructor
      · intro h; simp at h
      · rintro ⟨b, hb, hb'⟩; exact absurd (this b hb) hb'
    · have h1 := sendLoop_nonempty _ _ _ _ hnil _ hrec
      constructor
      · intro _
        by_contra hcon
        apply hnil
        rw [trimLeft_eq_nil_iff]
        intro b hb
        by_contra hb'
        exact hcon ⟨b, hb, hb'⟩
      · intro _; omega

/-- With every `c.Reply` succeeding the loop reports no error, and the chunks followed by
separators of line breaks give back the text. -/
theorem sendLoop_rejoin (replyErr : Nat → Option GoString) (hok : ∀ k, replyErr k = none) :
    ∀ (fuel k : Nat) (text : GoString), text.length ≤ fuel →
      ∃ res seps, sendLoop replyErr fuel k text = some res ∧ res.2 = none ∧
        seps.length = res.1.length ∧ (∀ s ∈ seps, ∀ b ∈ s, b = 10) ∧
        rejoin res.1 seps = text := by
  intro fuel
  induction fuel with
  | zero =>
    intro k text hl
    have : text = [] := List.length_eq_zero.mp (by omega)
    subst this
    exact ⟨([], none), [], sendLoop_nil _ _ _, rfl, rfl, by simp, rfl⟩
  | succ fuel ih =>
    intro k text hl
    by_cases hne : text = []
    · subst hne
      exact ⟨([], none), [], sendLoop_nil _ _ _, rfl, rfl, by simp, rfl⟩
    by_cases hr : RuneCountInString text ≤ maxLen
    · refine ⟨([text], replyErr k), [[]], sendLoop_last _ _ _ _ hne hr, hok k, rfl, ?_, ?_⟩
      · intro s hs b hb
        simp only [List.mem_singleton] at hs
        subst hs
        simp at hb
      · simp [rejoin]
    · have hgt : maxLen < RuneCountInString text := by omega
      have hf := cut_facts text hgt
      obtain ⟨res, seps, hres, herr, hlen, hsep, hjoin⟩ :=
        ih (k + 1) (TrimLeft (text.drop (cutIndex text).toNat) [10]) (by omega)
      refine ⟨(text.take (cutIndex text).toNat :: res.1, res.2),
        (text.drop (cutIndex text).toNat).takeWhile (fun b => decide (b ∈ [10])) :: seps,
        ?_, herr, by simp [hlen], ?_, ?_⟩
      · rw [sendLoop_step _ _ _ _ hgt, hok k]
        simp only [hres, Option.map_some']
      · intro s hs b hb
        simp only [List.mem_cons] at hs
        rcases hs with rfl | hs
        · have := List.mem_takeWhile_imp hb
          simpa using this
        · exact hsep s hs b hb
      · simp only [rejoin]
        rw [hjoin]
        unfold TrimLeft
        rw [List.append_assoc, List.takeWhile_append_dropWhile, List.take_append_drop]

/-- The chunks of a text, followed by separators of line breaks, give back the text. -/
theorem sendLongMessage_rejoin (replyErr : Nat → Option GoString)
    (hok : ∀ k, replyErr k = none) (text : GoString) :
    ∃ res seps, sendLongMessage replyErr text = some res ∧ res.2 = none ∧
      seps.length = res.1.length ∧ (∀ s ∈ seps, ∀ b ∈ s, b = 10) ∧
      rejoin res.1 seps = text := by
  unfold sendLongMessage
  by_cases hr : RuneCountInString text ≤ maxLen
  · rw [if_pos hr]
    refine ⟨([text], replyErr 0), [[]], rfl, hok 0, rfl, ?_, by simp [rejoin]⟩
    intro s hs b hb
    simp only [List.mem_singleton] at hs
    subst hs
    simp at hb
  · rw [if_neg hr]
    exact sendLoop_rejoin replyErr hok _ _ _ (le_refl _)

/-- The chunks of a valid UTF-8 text are valid UTF-8, and the cut of a text of more than
`maxLen` runes is a rune boundary. -/
theorem sendLongMessage_valid (replyErr : Nat → Option GoString) (text : GoString)
    (hv : ValidString text = true) :
    (∃ res, sendLongMessage replyErr text = some res ∧
      ∀ c ∈ res.1, ValidString c = true) ∧
    (maxLen < RuneCountInString text → Boundary text (cutIndex text).toNat) := by
  refine ⟨sendLongMessage_chunks replyErr (fun c => ValidString c = true)
    (fun t => ValidString t = true) (fun t h _ => h) ?_ text hv, ?_⟩
  · intro t ht hgt
    have hf := cut_facts t hgt
    have := valid_split hf.2.2.2.1 ht
    exact ⟨this.1, valid_trimLeft _ this.2⟩
  · intro hgt
    exact (cut_facts text hgt).2.2.2.1

/-! ## Texts made of repeated runes -/

theorem utf16LenLoop_fuel (f1 : Nat) : ∀ (f2 : Nat) (s : GoString),
    s.length ≤ f1 → s.length ≤ f2 → utf16LenLoop f1 s = utf16LenLoop f2 s := by
  induction f1 with
  | zero =>
    intro f2 s h1 _
    have : s = [] := List.length_eq_zero.mp (by omega)
    subst this
    cases f2 <;> rfl
  | succ n ih =>
    intro f2 s h1 h2
    cases s with
    | nil => cases f2 <;> rfl
    | cons a r =>
      cases f2 with
      | zero => simp at h2
      | succ m =>
        have hw := width_bounds (a :: r) (by simp)
        simp only [utf16LenLoop]
        rw [ih m]
        · simp only [List.length_drop, List.length_cons] at *; omega
        · simp only [List.length_drop, List.length_cons] at *; omega

/-- One iteration of `utf16Len`. -/
theorem utf16Len_step (s : GoString) (hs : s ≠ []) :
    utf16Len s = (if (DecodeRuneInString s).1 ≥ 0x10000 then 2 else 1) +
      utf16Len (s.drop (DecodeRuneInString s).2) := by
  cases s with
  | nil => exact absurd rfl hs
  | cons a r =>
    have hw := width_bounds (a :: r) hs
    unfold utf16Len
    show _ + utf16LenLoop r.length _ = _
    rw [utf16LenLoop_fuel r.length ((a :: r).drop (DecodeRuneInString (a :: r)).2).length]
    · simp only [List.length_drop, List.length_cons] at *; omega
    · exact le_refl _

theorem repeatBlock_length (n : Nat) (block : GoString) :
    (repeatBlock n block).length = n * block.length := by
  induction n with
  | zero => simp [repeatBlock]
  | succ n ih => simp only [repeatBlock, List.length_append, ih]; rw [Nat.succ_mul]; omega

theorem mem_repeatBlock (n : Nat) (block : GoString) (b : Nat)
    (h : b ∈ repeatBlock n block) : b ∈ block := by
  induction n with
  | zero => simp [repeatBlock] at h
  | succ n ih =>
    simp only [repeatBlock, List.mem_append] at h
    rcases h with h | h
    · exact h
    · exact ih h

/-- A text starting with `n` copies of a block that decodes as one rune has `n` runes more
than the rest. -/
theorem runeCount_repeatBlock (block : GoString) (r : Nat) (hne : block ≠ [])
    (hB : ∀ rest, DecodeRuneInString (block ++ rest) = (r, block.length)) (n : Nat)
    (rest : GoString) :
    RuneCountInString (repeatBlock n block ++ rest) = n + RuneCountInString rest := by
  induction n with
  | zero => simp [repeatBlock]
  | succ n ih =>
    have hne' : block ++ (repeatBlock n block ++ rest) ≠ [] := by simp [hne]
    simp only [repeatBlock, List.append_assoc]
    rw [runeCount_step _ hne', hB, List.drop_left, ih]
    omega

theorem runeByteIndex_repeatBlock (block : GoString) (r : Nat) (hne : block ≠ [])
    (hB : ∀ rest, DecodeRuneInString (block ++ rest) = (r, block.length)) (n m : Nat)
    (rest : GoString) :
    runeByteIndex (repeatBlock n block ++ rest) (n + m) =
      n * block.length + runeByteIndex rest m := by
  induction n with
  | zero => simp [repeatBlock]
  | succ n ih =>
    have hne' : block ++ (repeatBlock n block ++ rest) ≠ [] := by simp [hne]
    simp only [repeatBlock, List.append_assoc]
    rw [show n + 1 + m = (n + m) + 1 by omega, runeByteIndex_step _ _ hne', hB,
      List.drop_left, ih, Nat.succ_mul]
    show block.length + _ = _
    omega

theorem utf16Len_repeatBlock (block : GoString) (r : Nat) (hne : block ≠ [])
    (hB : ∀ rest, DecodeRuneInString (block ++ rest) = (r, block.length)) (n : Nat)
    (rest : GoString) :
    utf16Len (repeatBlock n block ++ rest) =
      n * (if r ≥ 0x10000 then 2 else 1) + utf16Len rest := by
  induction n with
  | zero => simp [repeatBlock]
  | succ n ih =>
    have hne' : block ++ (repeatBlock n block ++ rest) ≠ [] := by simp [hne]
    simp only [repeatBlock, List.append_assoc]
    rw [utf16Len_step _ hne', hB, List.drop_left, ih, Nat.succ_mul]
    dsimp only
    omega

theorem decode_block_ascii (a : Nat) (h : a < 0x80) (rest : GoString) :
    DecodeRuneInString ([a] ++ rest) = (a, [a].length) := decode_ascii a rest h

/-- The two bytes C3 A9 decode as the rune U+00E9. -/
theorem decode_block_e9 (rest : GoString) :
    DecodeRuneInString ([0xC3, 0xA9] ++ rest) = (0xE9, [0xC3, 0xA9].length) := by
  have h1 : first 0xC3 = 0x02 := by decide
  have hl : ¬ (0xC3 :: 0xA9 :: rest).length < 2 := by
    simp only [List.length_cons]; omega
  have hg : (0xC3 :: 0xA9 :: rest).getD 1 0 = 0xA9 := rfl
  show DecodeRuneInString (0xC3 :: 0xA9 :: rest) = _
  rw [decode_cons, h1, hg, if_neg (by decide), if_neg hl, if_neg (by decide),
    if_pos (by decide)]
  rfl

/-- The four bytes F0 9F 98 80 decode as the rune U+1F600. -/
theorem decode_block_1f600 (rest : GoString) :
    DecodeRuneInString ([0xF0, 0x9F, 0x98, 0x80] ++ rest) =
      (0x1F600, [0xF0, 0x9F, 0x98, 0x80].length) := by
  have h1 : first 0xF0 = 0x34 := by decide
  have hl : ¬ (0xF0 :: 0x9F :: 0x98 :: 0x80 :: rest).length < 4 := by
    simp only [List.length_cons]; omega
  have hg1 : (0xF0 :: 0x9F :: 0x98 :: 0x80 :: rest).getD 1 0 = 0x9F := rfl
  have hg2 : (0xF0 :: 0x9F :: 0x98 :: 0x80 :: rest).getD 2 0 = 0x98 := rfl
  have hg3 : (0xF0 :: 0x9F :: 0x98 :: 0x80 :: rest).getD 3 0 = 0x80 := rfl
  show DecodeRuneInString (0xF0 :: 0x9F :: 0x98 :: 0x80 :: rest) = _
  rw [decode_cons, h1, hg1, hg2, hg3, if_neg (by decide), if_neg hl, if_neg (by decide),
    if_neg (by decide), if_neg (by decide), if_neg (by decide), if_neg (by decide)]
  rfl

/-! ## The midpoint rule -/

/-- What `LastIndex` says about last occurrences of a string starting with a line break:
there is none when it returns -1, and otherwise the index returned is the only one. -/
theorem lastIndex_isLast (s rest : GoString) :
    (LastIndex s (10 :: rest) = -1 ∧ ∀ i, ¬ IsLastOccurrence s (10 :: rest) i) ∨
    (∃ i : Nat, LastIndex s (10 :: rest) = (i : Int) ∧ IsLastOccurrence s (10 :: rest) i ∧
      ∀ j, IsLastOccurrence s (10 :: rest) j → j = i) := by
  rcases lastIndex_spec s (10 :: rest) with ⟨h1, h2⟩ | ⟨i, hi, h1, h2, h3⟩
  · left
    refine ⟨h1, ?_⟩
    rintro i ⟨hm, _⟩
    have := (getD_of_isPrefixOf s rest i hm).1
    rw [h2 i (by omega)] at hm
    exact absurd hm (by decide)
  · right
    refine ⟨i, h1, ⟨h2, h3⟩, ?_⟩
    rintro j ⟨hm, hmax⟩
    rcases Nat.lt_trichotomy j i with hlt | heq | hgt
    · rw [hmax i hlt hi] at h2
      exact absurd h2 (by decide)
    · exact heq
    · have := (getD_of_isPrefixOf s rest j hm).1
      rw [h3 j hgt (by omega)] at hm
      exact absurd hm (by decide)

/-- The cut of the code follows the midpoint rule counted in bytes. -/
theorem cutIndex_rule (text : GoString) (h : maxLen < RuneCountInString text) :
    MidpointRuleBytes text (cutIndex text).toNat := by
  have hbl := byteLimit_bounds text h
  have hlen : (text.take (runeByteIndex text maxLen)).length = runeByteIndex text maxLen := by
    rw [List.length_take]; omega
  have hneg : (-1 : Int) < ((runeByteIndex text maxLen / 2 : Nat) : Int) := by omega
  unfold MidpointRuleBytes MidpointRule cutIndex
  simp only []
  rcases lastIndex_isLast (text.take (runeByteIndex text maxLen)) [10] with
    ⟨d1, d2⟩ | ⟨i, d1, d2, d3⟩
  · -- no double line break in the window
    rw [d1, if_pos hneg]
    rcases lastIndex_isLast (text.take (runeByteIndex text maxLen)) [] with
      ⟨s1, s2⟩ | ⟨j, s1, s2, s3⟩
    · rw [s1, if_pos hneg, Int.toNat_ofNat]
      exact Or.inr (Or.inr ⟨fun i hi => absurd hi (d2 i), fun j hj => absurd hj (s2 j),
        hlen.symm⟩)
    · rw [s1]
      by_cases hj : (j : Int) < ((runeByteIndex text maxLen / 2 : Nat) : Int)
      · rw [if_pos hj, Int.toNat_ofNat]
        refine Or.inr (Or.inr ⟨fun i hi => absurd hi (d2 i), ?_, hlen.symm⟩)
        intro j' hj'
        rw [s3 j' hj']
        omega
      · rw [if_neg hj, Int.toNat_ofNat]
        exact Or.inr (Or.inl ⟨fun i hi => absurd hi (d2 i), j, s2, by omega, rfl⟩)
  · rw [d1]
    by_cases hi : (i : Int) < ((runeByteIndex text maxLen / 2 : Nat) : Int)
    · rw [if_pos hi]
      have hd : ∀ i', IsLastOccurrence (text.take (runeByteIndex text maxLen)) [10, 10] i' →
          i' < runeByteIndex text maxLen / 2 := by
        intro i' hi'
        rw [d3 i' hi']
        omega
      rcases lastIndex_isLast (text.take (runeByteIndex text maxLen)) [] with
        ⟨s1, s2⟩ | ⟨j, s1, s2, s3⟩
      · rw [s1, if_pos hneg, Int.toNat_ofNat]
        exact Or.inr (Or.inr ⟨hd, fun j hj => absurd hj (s2 j), hlen.symm⟩)
      · rw [s1]
        by_cases hj : (j : Int) < ((runeByteIndex text maxLen / 2 : Nat) : Int)
        · rw [if_pos hj, Int.toNat_ofNat]
          refine Or.inr (Or.inr ⟨hd, ?_, hlen.symm⟩)
          intro j' hj'
          rw [s3 j' hj']
          omega
        · rw [if_neg hj, Int.toNat_ofNat]
          exact Or.inr (Or.inl ⟨hd, j, s2, by omega, rfl⟩)
    · rw [if_neg hi, if_neg hi, Int.toNat_ofNat]
      exact Or.inl ⟨i, d2, by omega, rfl⟩

/-- The first chunk of a text of more than `maxLen` runes is the text up to the cut. -/
theorem sendLongMessage_head (replyErr : Nat → Option GoString) (text : GoString)
    (h : maxLen < RuneCountInString text) :
    ∃ res rest, sendLongMessage replyErr text = some res ∧
      res.1 = text.take (cutIndex text).toNat :: rest := by
  obtain ⟨res, hres, -⟩ := sendLongMessage_chunks replyErr (fun _ => True) (fun _ => True)
    (fun _ _ _ => trivial) (fun _ _ _ => ⟨trivial, trivial⟩) text trivial
  suffices hrest : ∃ rest, res.1 = text.take (cutIndex text).toNat :: rest by
    obtain ⟨rest, hrest⟩ := hrest
    exact ⟨res, rest, hres, hrest⟩
  have hf := cut_facts text h
  unfold sendLongMessage at hres
  rw [if_neg (by omega)] at hres
  obtain ⟨f, hf'⟩ : ∃ f, text.length = f + 1 := ⟨text.length - 1, by omega⟩
  rw [hf', sendLoop_step _ _ _ _ h] at hres
  cases hk : replyErr 0 with
  | some err =>
    rw [hk] at hres
    injection hres with hres
    subst hres
    exact ⟨[], rfl⟩
  | none =>
    rw [hk] at hres
    simp only [] at hres
    cases hrec : sendLoop replyErr f (0 + 1)
        (TrimLeft (text.drop (cutIndex text).toNat) [10]) with
    | none => rw [hrec] at hres; exact absurd hres (by simp)
    | some r =>
      rw [hrec] at hres
      simp only [Option.map_some'] at hres
      injection hres with hres
      subst hres
      exact ⟨r.1, rfl⟩

/-- The first chunk of a text of more than `maxLen` runes follows the midpoint rule
counted in bytes, and a chunk that is the whole window has exactly `maxLen` runes. -/
theorem sendLongMessage_midpoint (replyErr : Nat → Option GoString) (text : GoString)
    (h : 4096 < RuneCountInString text) :
    ∃ res rest c, sendLongMessage replyErr text = some res ∧ res.1 = text.take c :: rest ∧
      MidpointRuleBytes text c ∧
      (c = runeByteIndex text maxLen → RuneCountInString (text.take c) = 4096) := by
  obtain ⟨res, rest, h1, h2⟩ := sendLongMessage_head replyErr text h
  refine ⟨res, rest, _, h1, h2, cutIndex_rule text h, ?_⟩
  intro hc
  rw [hc]
  exact runeCount_take_runeByteIndex maxLen text (le_of_lt h)

/-! ## Concrete texts -/

theorem getD_mem (l : GoString) (i : Nat) (h : i < l.length) : l.getD i 0 ∈ l := by
  rw [List.getD_eq_getElem _ _ h]
  exact List.getElem_mem h

/-- Without a line break in the second half of the window the cut is the byte limit. -/
theorem cutIndex_of_no_break (text : GoString) (h : maxLen < RuneCountInString text)
    (hno : ∀ c, runeByteIndex text maxLen / 2 ≤ c → c < runeByteIndex text maxLen →
      text.getD c 0 ≠ 10) :
    (cutIndex text).toNat = runeByteIndex text maxLen := by
  obtain ⟨c, hc, hhalf, hcase⟩ := cutIndex_spec text h
  rw [hc, Int.toNat_ofNat]
  rcases hcase with h1 | ⟨h1, h2⟩
  · exact h1
  · exact absurd h2 (hno c hhalf h1)

theorem trailingBreakText_runes : RuneCountInString trailingBreakText = 4097 := by
  unfold trailingBreakText
  rw [runeCount_repeatBlock [97] 97 (by simp) (decode_block_ascii 97 (by decide))]
  rfl

theorem trailingBreakText_byteLimit : runeByteIndex trailingBreakText maxLen = 4096 := by
  unfold trailingBreakText
  show runeByteIndex _ (4096 + 0) = _
  rw [runeByteIndex_repeatBlock [97] 97 (by simp) (decode_block_ascii 97 (by decide))]
  rfl

theorem trailingBreakText_cut : (cutIndex trailingBreakText).toNat = 4096 := by
  have hr := trailingBreakText_runes
  have hb := trailingBreakText_byteLimit
  rw [cutIndex_of_no_break trailingBreakText (by rw [hr]; decide), hb]
  intro c _ hc
  rw [hb] at hc
  have hlen : (repeatBlock 4096 [97]).length = 4096 := by rw [repeatBlock_length]; rfl
  unfold trailingBreakText
  rw [List.getD_append _ _ _ _ (by omega)]
  have := mem_repeatBlock _ _ _ (getD_mem (repeatBlock 4096 [97]) c (by omega))
  simp only [List.mem_singleton] at this
  rw [this]
  decide

/-- The text of 4096 letters and one line break is sent as the single chunk of the 4096
letters. -/
theorem trailingBreakText_chunks :
    sendLongMessage replyOk trailingBreakText = some ([repeatBlock 4096 [97]], none) := by
  have hr := trailingBreakText_runes
  have hc := trailingBreakText_cut
  have hlen : (repeatBlock 4096 [97]).length = 4096 := by rw [repeatBlock_length]; rfl
  have hgt : maxLen < RuneCountInString trailingBreakText := by rw [hr]; decide
  have htl : trailingBreakText.length = 4096 + 1 := by
    unfold trailingBreakText
    rw [List.length_append, hlen]
    rfl
  unfold sendLongMessage
  rw [if_neg (by omega), htl, sendLoop_step _ _ _ _ hgt, hc]
  have ht : trailingBreakText.take 4096 = repeatBlock 4096 [97] := List.take_left' hlen
  have hd : trailingBreakText.drop 4096 = [10] := List.drop_left' hlen
  rw [ht, hd]
  show Option.map _ (sendLoop replyOk 4096 (0 + 1) []) = _
  rw [sendLoop_nil]
  rfl

theorem emojiText_runes : RuneCountInString emojiText = 2049 := by
  have := runeCount_repeatBlock [0xF0, 0x9F, 0x98, 0x80] 0x1F600 (by simp)
    decode_block_1f600 2049 []
  rw [List.append_nil] at this
  exact this

theorem emojiText_utf16 : utf16Len emojiText = 4098 := by
  have := utf16Len_repeatBlock [0xF0, 0x9F, 0x98, 0x80] 0x1F600 (by simp)
    decode_block_1f600 2049 []
  rw [List.append_nil] at this
  exact this

/-- The text of 2049 emoji is sent as one chunk of 4098 UTF-16 code units. -/
theorem emojiText_chunks :
    sendLongMessage replyOk emojiText = some ([emojiText], none) ∧
      utf16Len emojiText = 4098 := by
  refine ⟨?_, emojiText_utf16⟩
  unfold sendLongMessage
  rw [if_pos (by rw [emojiText_runes]; decide)]
  rfl

theorem isPrefixOf_tail (s rest : GoString) (i : Nat)
    (h : (10 :: 10 :: rest).isPrefixOf (s.drop i) = true) :
    (10 :: rest).isPrefixOf (s.drop (i + 1)) = true := by
  cases hd : s.drop i with
  | nil => rw [hd] at h; simp [List.isPrefixOf] at h
  | cons x xs =>
    rw [hd] at h
    have hx : s.drop (i + 1) = xs := by
      have := congrArg (List.drop 1) hd
      rw [List.drop_drop] at this
      simpa [Nat.add_comm] using this
    rw [hx]
    simp only [List.isPrefixOf, Bool.and_eq_true, beq_iff_eq] at h
    simpa [List.isPrefixOf] using h.2

theorem isPrefixOf_of_getD (s : GoString) (i : Nat) (hi : i < s.length)
    (h : s.getD i 0 = 10) : [10].isPrefixOf (s.drop i) = true := by
  rw [List.getD_eq_getElem _ _ hi] at h
  rw [List.drop_eq_getElem_cons hi, h]
  simp [List.isPrefixOf]

theorem accentedText_length : accentedText.length = 6144 := by
  unfold accentedText
  simp only [List.length_append, repeatBlock_length]
  rfl

theorem accentedText_runes : RuneCountInString accentedText = 4097 := by
  unfold accentedText
  rw [runeCount_repeatBlock [97] 97 (by simp) (decode_block_ascii 97 (by decide)),
    runeCount_repeatBlock [10] 10 (by simp) (decode_block_ascii 10 (by decide)),
    runeCount_repeatBlock [0xC3, 0xA9] 0xE9 (by simp) decode_block_e9]
  rfl

theorem accentedText_byteLimit : runeByteIndex accentedText maxLen = 6143 := by
  have e3 : runeByteIndex (repeatBlock 2047 [0xC3, 0xA9] ++ [97]) 2047 = 4094 :=
    runeByteIndex_repeatBlock [0xC3, 0xA9] 0xE9 (by simp) decode_block_e9 2047 0 [97]
  have e2 : runeByteIndex (repeatBlock 1 [10] ++ (repeatBlock 2047 [0xC3, 0xA9] ++ [97]))
      2048 = 4095 := by
    have := runeByteIndex_repeatBlock [10] 10 (by simp) (decode_block_ascii 10 (by decide))
      1 2047 (repeatBlock 2047 [0xC3, 0xA9] ++ [97])
    rw [e3] at this
    exact this
  have e1 := runeByteIndex_repeatBlock [97] 97 (by simp) (decode_block_ascii 97 (by decide))
    2048 2048 (repeatBlock 1 [10] ++ (repeatBlock 2047 [0xC3, 0xA9] ++ [97]))
  rw [e2] at e1
  exact e1

/-- The only line break among the first 6143 bytes of the text is at offset 2048. -/
theorem accentedText_break (c : Nat) (hc : c < 6143) (h : accentedText.getD c 0 = 10) :
    c = 2048 := by
  have hl1 : (repeatBlock 2048 [97]).length = 2048 := by rw [repeatBlock_length]; rfl
  have hl2 : (repeatBlock 1 [10]).length = 1 := rfl
  have hl3 : (repeatBlock 2047 [0xC3, 0xA9]).length = 4094 := by
    rw [repeatBlock_length]; rfl
  unfold accentedText at h
  rcases Nat.lt_trichotomy c 2048 with hlt | heq | hgt
  · rw [List.getD_append _ _ _ _ (by omega)] at h
    have := mem_repeatBlock _ _ _ (getD_mem (repeatBlock 2048 [97]) c (by omega))
    rw [h] at this
    simp at this
  · exact heq
  · rw [List.getD_append_right _ _ _ _ (by omega),
      List.getD_append_right _ _ _ _ (by omega),
      List.getD_append _ _ _ _ (by omega)] at h
    have := mem_repeatBlock _ _ _ (getD_mem (repeatBlock 2047 [0xC3, 0xA9])
      (c - (repeatBlock 2048 [97]).length - (repeatBlock 1 [10]).length) (by omega))
    rw [h] at this
    simp at this

theorem accentedText_at_break : accentedText.getD 2048 0 = 10 := by
  have hl1 : (repeatBlock 2048 [97]).length = 2048 := by rw [repeatBlock_length]; rfl
  unfold accentedText
  rw [List.getD_append_right _ _ _ _ (by omega), hl1]
  rfl

theorem accentedText_cut : (cutIndex accentedText).toNat = 6143 := by
  have hr := accentedText_runes
  have hb := accentedText_byteLimit
  rw [cutIndex_of_no_break accentedText (by rw [hr]; decide), hb]
  intro c h1 h2 h3
  rw [hb] at h1 h2
  have := accentedText_break c h2 h3
  omega

theorem accentedText_window_break (i : Nat) (hi : i < 6143)
    (h : (accentedText.take 6143).getD i 0 = 10) : i = 2048 := by
  rw [getD_take _ _ _ hi] at h
  exact accentedText_break i hi h

theorem accentedText_window_length : (accentedText.take 6143).length = 6143 := by
  rw [List.length_take, accentedText_length]; rfl

/-- The window of the accented text holds no double line break. -/
theorem accentedText_no_double (i : Nat) :
    ¬ IsLastOccurrence (accentedText.take 6143) [10, 10] i := by
  rintro ⟨hm, -⟩
  have h1 := getD_of_isPrefixOf _ _ i hm
  have h2 := getD_of_isPrefixOf _ _ (i + 1) (isPrefixOf_tail _ _ i hm)
  rw [accentedText_window_length] at h1 h2
  have e1 := accentedText_window_break i h1.1 h1.2
  have e2 := accentedText_window_break (i + 1) h2.1 h2.2
  omega

/-- The only single line break of the window of the accented text is at offset 2048. -/
theorem accentedText_single_unique (j : Nat)
    (h : IsLastOccurrence (accentedText.take 6143) [10] j) : j = 2048 := by
  have h1 := getD_of_isPrefixOf _ _ j h.1
  rw [accentedText_window_length] at h1
  exact accentedText_window_break j h1.1 h1.2

theorem accentedText_single : IsLastOccurrence (accentedText.take 6143) [10] 2048 := by
  refine ⟨?_, ?_⟩
  · apply isPrefixOf_of_getD _ _ (by rw [accentedText_window_length]; decide)
    rw [getD_take _ _ _ (by decide)]
    exact accentedText_at_break
  · intro j hj hj'
    by_contra hcon
    have hm : [10].isPrefixOf ((accentedText.take 6143).drop j) = true := by
      cases hb : [10].isPrefixOf ((accentedText.take 6143).drop j) with
      | true => rfl
      | false => exact absurd hb hcon
    have h1 := getD_of_isPrefixOf _ _ j hm
    rw [accentedText_window_length] at h1
    have := accentedText_window_break j h1.1 h1.2
    omega

/-- The line break of the accented text is rune 2048 of the window. -/
theorem accentedText_break_rune :
    RuneCountInString ((accentedText.take 6143).take 2048) = 2048 := by
  have hl1 : (repeatBlock 2048 [97]).length = 2048 := by rw [repeatBlock_length]; rfl
  have ht : (accentedText.take 6143).take 2048 = repeatBlock 2048 [97] := by
    rw [List.take_take]
    exact List.take_left' hl1
  have hc := runeCount_repeatBlock [97] 97 (by simp) (decode_block_ascii 97 (by decide))
    2048 []
  rw [List.append_nil] at hc
  rw [ht, hc, runeCount_nil]

/-- In the accented text the single line break lies at rune 2048 of the window of 4096
runes, at its midpoint, so the midpoint rule counted in runes cuts there and nowhere
else. -/
theorem accentedText_rule_runes (c : Nat) : MidpointRuleRunes accentedText c ↔ c = 2048 := by
  unfold MidpointRuleRunes MidpointRule
  rw [accentedText_byteLimit]
  have hmid : maxLen / 2 = 2048 := rfl
  constructor
  · rintro (⟨i, hi, -, -⟩ | ⟨-, j, hj, -, rfl⟩ | ⟨-, hall, -⟩)
    · exact absurd hi (accentedText_no_double i)
    · exact accentedText_single_unique c hj
    · have := hall 2048 accentedText_single
      simp only [] at this
      rw [accentedText_break_rune, hmid] at this
      omega
  · rintro rfl
    refine Or.inr (Or.inl ⟨fun i hi => absurd hi (accentedText_no_double i), 2048,
      accentedText_single, ?_, rfl⟩)
    simp only []
    rw [accentedText_break_rune, hmid]

/-- The first chunk of the accented text is its first 6143 bytes, not the 2048 bytes
before the line break. -/
theorem accentedText_chunks :
    ∃ res rest, sendLongMessage replyOk accentedText = some res ∧
      res.1 = accentedText.take 6143 :: rest ∧
      accentedText.take 6143 ≠ accentedText.take 2048 := by
  obtain ⟨res, rest, h1, h2⟩ := sendLongMessage_head replyOk accentedText
    (by rw [accentedText_runes]; decide)
  rw [accentedText_cut] at h2
  refine ⟨res, rest, h1, h2, ?_⟩
  intro h
  have := congrArg List.length h
  simp only [List.length_take, accentedText_length] at this
  exact absurd this (by decide)

/-! ## Every iteration of the loop -/

/-- The loop returns, and the chunks it hands to `c.Reply` are cut, iteration by
iteration, at cuts satisfying `P`, when the cut of the code satisfies `P` on every text of
more than `maxLen` runes satisfying the invariant `I`, and the remainder satisfies `I`
again. -/
theorem sendLoop_loopChunks (replyErr : Nat → Option GoString) (P : GoString → Nat → Prop)
    (I : GoString → Prop)
    (hcut : ∀ t, I t → maxLen < RuneCountInString t →
      P t (cutIndex t).toNat ∧ I (TrimLeft (t.drop (cutIndex t).toNat) [10])) :
    ∀ (fuel k : Nat) (text : GoString), I text → text.length ≤ fuel →
      ∃ res, sendLoop replyErr fuel k text = some res ∧
        LoopChunks P replyErr k text res.1 := by
  intro fuel
  induction fuel with
  | zero =>
    intro k text _ hl
    have : text = [] := List.length_eq_zero.mp (by omega)
    subst this
    exact ⟨([], none), sendLoop_nil _ _ _, LoopChunks.done k⟩
  | succ fuel ih =>
    intro k text hI hl
    by_cases hne : text = []
    · subst hne
      exact ⟨([], none), sendLoop_nil _ _ _, LoopChunks.done k⟩
    by_cases hr : RuneCountInString text ≤ maxLen
    · exact ⟨([text], replyErr k), sendLoop_last _ _ _ _ hne hr, LoopChunks.last k text hne hr⟩
    · have hgt : maxLen < RuneCountInString text := by omega
      obtain ⟨hp, hi⟩ := hcut text hI hgt
      have hf := cut_facts text hgt
      rw [sendLoop_step _ _ _ _ hgt]
      cases hk : replyErr k with
      | some err => exact ⟨_, rfl, LoopChunks.stop k text _ err hgt hp hk⟩
      | none =>
        obtain ⟨res, hres, hlc⟩ := ih (k + 1) _ hi (by omega)
        exact ⟨(text.take (cutIndex text).toNat :: res.1, res.2),
          by simp only [hres, Option.map_some'],
          LoopChunks.cut k text _ res.1 hgt hp hk hlc⟩

/-- On a text of more than `maxLen` runes `sendLongMessage` is the loop from the first
call of `c.Reply`. -/
theorem sendLongMessage_eq_loop (replyErr : Nat → Option GoString) (text : GoString)
    (h : maxLen < RuneCountInString text) :
    sendLongMessage replyErr text = sendLoop replyErr text.length 0 text := by
  unfold sendLongMessage
  rw [if_neg (by omega)]

/-- The cut of the code on a text of more than `maxLen` runes is a midpoint cut. -/
theorem cutIndex_midpointCut (t : GoString) (h : maxLen < RuneCountInString t) :
    MidpointCut t (cutIndex t).toNat := by
  refine ⟨cutIndex_rule t h, ?_⟩
  intro hc
  rw [hc]
  exact runeCount_take_runeByteIndex maxLen t (le_of_lt h)

/-- The cut of the code on a valid text of more than `maxLen` runes is a boundary cut,
and the remainder without its leading line breaks is valid. -/
theorem cutIndex_boundaryCut (t : GoString) (hv : ValidString t = true)
    (h : maxLen < RuneCountInString t) :
    BoundaryCut t (cutIndex t).toNat ∧
      ValidString (TrimLeft (t.drop (cutIndex t).toNat) [10]) = true := by
  have hf := cut_facts t h
  have hs := valid_split hf.2.2.2.1 hv
  exact ⟨⟨hv, hf.2.2.2.1, hs.1, hs.2⟩, valid_trimLeft _ hs.2⟩

/-- Every iteration of the loop cuts by the midpoint rule counted in bytes. -/
theorem sendLoop_midpoint (replyErr : Nat → Option GoString) (fuel k : Nat)
    (text : GoString) (hf : text.length ≤ fuel) :
    ∃ res, sendLoop replyErr fuel k text = some res ∧
      LoopChunks MidpointCut replyErr k text res.1 :=
  sendLoop_loopChunks replyErr MidpointCut (fun _ => True)
    (fun t _ h => ⟨cutIndex_midpointCut t h, trivial⟩) fuel k text trivial hf

/-- Every iteration of the loop on a valid text cuts on a rune boundary, and every chunk
is valid. -/
theorem sendLoop_valid (replyErr : Nat → Option GoString) (fuel k : Nat)
    (text : GoString) (hv : ValidString text = true) (hf : text.length ≤ fuel) :
    ∃ res, sendLoop replyErr fuel k text = some res ∧
      (∀ c ∈ res.1, ValidString c = true) ∧
      LoopChunks BoundaryCut replyErr k text res.1 := by
  obtain ⟨res, h1, hall⟩ := sendLoop_chunks replyErr (fun c => ValidString c = true)
    (fun t => ValidString t = true) (fun t h _ => h)
    (fun t ht hgt => ⟨(cutIndex_boundaryCut t ht hgt).1.2.2.1,
      (cutIndex_boundaryCut t ht hgt).2⟩) fuel k text hv hf
  obtain ⟨res', h1', hlc⟩ := sendLoop_loopChunks replyErr BoundaryCut
    (fun t => ValidString t = true) (fun t ht hgt => cutIndex_boundaryCut t ht hgt)
    fuel k text hv hf
  have : res = res' := Option.some.inj (h1.symm.trans h1')
  subst this
  exact ⟨res, h1, hall, hlc⟩

/-- A text starting with `n` copies of a block that decodes as one valid rune is valid
when the rest is. -/
theorem valid_repeatBlock (block : GoString) (r : Nat) (hne : block ≠ [])
    (hB : ∀ rest, DecodeRuneInString (block ++ rest) = (r, block.length))
    (hok : ¬ (r = RuneError ∧ block.length = 1)) (n : Nat) (rest : GoString) :
    ValidString (repeatBlock n block ++ rest) = ValidString rest := by
  induction n with
  | zero => simp [repeatBlock]
  | succ n ih =>
    have hne' : block ++ (repeatBlock n block ++ rest) ≠ [] := by simp [hne]
    simp only [repeatBlock, List.append_assoc]
    rw [valid_step _ hne', hB]
    dsimp only
    rw [if_neg hok, List.drop_left, ih]

theorem accentedText_valid : ValidString accentedText = true := by
  unfold accentedText
  rw [valid_repeatBlock [97] 97 (by simp) (decode_block_ascii 97 (by decide)) (by decide),
    valid_repeatBlock [10] 10 (by simp) (decode_block_ascii 10 (by decide)) (by decide),
    valid_repeatBlock [0xC3, 0xA9] 0xE9 (by simp) decode_block_e9 (by decide)]
  rfl

/-- The accented text is handed over as two chunks: its first 6143 bytes, cut by the hard
split behind the last two-byte rune, and the final letter. -/
theorem accentedText_result :
    sendLongMessage replyOk accentedText = some ([accentedText.take 6143, [97]], none) := by
  have hgt : maxLen < RuneCountInString accentedText := by
    rw [accentedText_runes]; decide
  have hd : accentedText.drop 6143 = [97] := by
    unfold accentedText
    rw [← List.append_assoc, ← List.append_assoc]
    exact List.drop_left' (by simp only [List.length_append, repeatBlock_length]; rfl)
  rw [sendLongMessage_eq_loop _ _ hgt, accentedText_length,
    show (6144 : Nat) = 6143 + 1 from rfl, sendLoop_step _ _ _ _ hgt, accentedText_cut, hd]
  show Option.map _ (sendLoop replyOk (6142 + 1) (0 + 1) [97]) = _
  rw [sendLoop_last _ _ _ _ (by simp) (by decide)]
  rfl

/-! ## The mapping store -/

theorem getChatMapping_eq (m : Mappings) (cid : GoString) :
    m.GetChatMapping cid = m.data.ChatMappings cid := by
  unfold Mappings.GetChatMapping
  cases m.data.ChatMappings cid <;> rfl

/-- On a chat without binding `SetSession` and `ClearSession` return no error and the
store as it was. -/
theorem session_ops_unbound (m : Mappings) (saveErr : Option GoString) (now : Nat)
    (cid tid sid : GoString) (h : m.GetChatMapping cid = none) :
    m.SetSession saveErr now cid tid sid = (m, none) ∧
      m.ClearSession saveErr cid tid = (m, none) := by
  rw [getChatMapping_eq] at h
  unfold Mappings.SetSession Mappings.ClearSession
  rw [h]
  exact ⟨rfl, rfl⟩

/-- What `SetSession` changes on a bound chat: the session of that thread, nothing else. -/
theorem setSession_bound (m : Mappings) (saveErr : Option GoString) (now : Nat)
    (cid tid sid : GoString) (cm : ChatMapping) (h : m.GetChatMapping cid = some cm) :
    (m.SetSession saveErr now cid tid sid).1.GetSession cid tid =
        some { EveSessionID := sid, LastActive := now } ∧
      (∃ cm', (m.SetSession saveErr now cid tid sid).1.GetChatMapping cid = some cm' ∧
        cm'.ProjectID = cm.ProjectID ∧ cm'.ProjectName = cm.ProjectName) ∧
      (∀ tid', tid' ≠ tid →
        (m.SetSession saveErr now cid tid sid).1.GetSession cid tid' = m.GetSession cid tid') ∧
      (∀ cid', cid' ≠ cid →
        (m.SetSession saveErr now cid tid sid).1.data.ChatMappings cid' =
          m.data.ChatMappings cid') := by
  rw [getChatMapping_eq] at h
  simp only [Mappings.SetSession, Mappings.GetSession, getChatMapping_eq, h]
  refine ⟨by simp [mapSet],
    ⟨{ cm with Sessions := mapSet cm.Sessions tid ⟨sid, now⟩ }, by simp [mapSet], rfl, rfl⟩,
    ?_, ?_⟩
  · intro tid' ht; simp [mapSet, ht]
  · intro cid' hc; simp [mapSet, hc]

/-- What `ClearSession` changes on a bound chat: the session of that thread, nothing
else. -/
theorem clearSession_bound (m : Mappings) (saveErr : Option GoString)
    (cid tid : GoString) (cm : ChatMapping) (h : m.GetChatMapping cid = some cm) :
    (m.ClearSession saveErr cid tid).1.GetSession cid tid = none ∧
      (∃ cm', (m.ClearSession saveErr cid tid).1.GetChatMapping cid = some cm' ∧
        cm'.ProjectID = cm.ProjectID ∧ cm'.ProjectName = cm.ProjectName) ∧
      (∀ tid', tid' ≠ tid →
        (m.ClearSession saveErr cid tid).1.GetSession cid tid' = m.GetSession cid tid') ∧
      (∀ cid', cid' ≠ cid →
        (m.ClearSession saveErr cid tid).1.data.ChatMappings cid' =
          m.data.ChatMappings cid') := by
  rw [getChatMapping_eq] at h
  simp only [Mappings.ClearSession, Mappings.GetSession, getChatMapping_eq, h]
  refine ⟨by simp [mapSet, mapDelete],
    ⟨{ cm with Sessions := mapDelete cm.Sessions tid }, by simp [mapSet], rfl, rfl⟩, ?_, ?_⟩
  · intro tid' ht; simp [mapSet, mapDelete, ht]
  · intro cid' hc; simp [mapSet, hc]

/-! ## The relay protocol -/

/-- The method `handleMessage` on a thread with a session. -/
theorem handleMessage_active (eve : EveClient) (env : Env) (m : Mappings)
    (cid tid text : GoString) (cm : ChatMapping) (sm : SessionMapping)
    (hcm : m.GetChatMapping cid = some cm) (hsm : m.GetSession cid tid = some sm) :
    handleMessage eve env m cid tid text =
      match eve.SendMessage sm.EveSessionID text with
      | .error err =>
        if Contains err (str "not found") then
          ((m.ClearSession (env.saveErr 1) cid tid).1,
            [Event.sendMessage sm.EveSessionID text, Event.clearSession cid tid,
              Event.reply
                (str "Session expired. Send your message again to start a new conversation.")])
        else
          (m, [Event.sendMessage sm.EveSessionID text, Event.reply (str "Error: " ++ err)])
      | .ok result =>
        ((m.SetSession (env.saveErr 1) (env.now 1) cid tid sm.EveSessionID).1,
          [Event.sendMessage sm.EveSessionID text,
            Event.setSession cid tid sm.EveSessionID] ++
          (match sendLongMessage env.replyErr result.Response with
            | some res => res.1
            | none => []).map Event.reply) := by
  unfold handleMessage
  simp only [hcm, hsm, List.nil_append]

/-- The method `handleMessage` on a thread without session of a bound chat, when the
session is created. -/
theorem handleMessage_create (eve : EveClient) (env : Env) (m : Mappings)
    (cid tid text : GoString) (cm : ChatMapping) (result : CreateSessionResponse)
    (hcm : m.GetChatMapping cid = some cm) (hsm : m.GetSession cid tid = none)
    (hcreate : eve.CreateSession cm.ProjectID (sessionNameOf tid) = .ok result) :
    handleMessage eve env m cid tid text =
      match eve.SendMessage result.SessionID text with
      | .error err =>
        if Contains err (str "not found") then
          (((m.SetSession (env.saveErr 0) (env.now 0) cid tid result.SessionID).1.ClearSession
              (env.saveErr 1) cid tid).1,
            [Event.createSession cm.ProjectID (sessionNameOf tid),
              Event.setSession cid tid result.SessionID,
              Event.sendMessage result.SessionID text, Event.clearSession cid tid,
              Event.reply
                (str "Session expired. Send your message again to start a new conversation.")])
        else
          ((m.SetSession (env.saveErr 0) (env.now 0) cid tid result.SessionID).1,
            [Event.createSession cm.ProjectID (sessionNameOf tid),
              Event.setSession cid tid result.SessionID,
              Event.sendMessage result.SessionID text, Event.reply (str "Error: " ++ err)])
      | .ok resp =>
        (((m.SetSession (env.saveErr 0) (env.now 0) cid tid result.SessionID).1.SetSession
            (env.saveErr 1) (env.now 1) cid tid result.SessionID).1,
          [Event.createSession cm.ProjectID (sessionNameOf tid),
            Event.setSession cid tid result.SessionID,
            Event.sendMessage result.SessionID text,
            Event.setSession cid tid result.SessionID] ++
          (match sendLongMessage env.replyErr resp.Response with
            | some res => res.1
            | none => []).map Event.reply) := by
  have hn : (if tid ≠ str "default" then str "Telegram thread " ++ tid else []) =
      sessionNameOf tid := rfl
  unfold handleMessage
  simp only [hcm, hsm, hn, hcreate]
  cases eve.SendMessage result.SessionID text with
  | error err => by_cases hc : Contains err (str "not found") = true <;> simp [hc]
  | ok resp => simp

/-- On a thread without session of a bound chat `handleMessage` first calls
`CreateSession` for the chat's project. -/
theorem handleMessage_create_first (eve : EveClient) (env : Env) (m : Mappings)
    (cid tid text : GoString) (cm : ChatMapping)
    (hcm : m.GetChatMapping cid = some cm) (hsm : m.GetSession cid tid = none) :
    ∃ rest, (handleMessage eve env m cid tid text).2 =
      Event.createSession cm.ProjectID (sessionNameOf tid) :: rest := by
  cases hcreate : eve.CreateSession cm.ProjectID (sessionNameOf tid) with
  | error err =>
    have hn : (if tid ≠ str "default" then str "Telegram thread " ++ tid else []) =
        sessionNameOf tid := rfl
    refine ⟨[Event.reply (str "Failed to create session: " ++ err)], ?_⟩
    unfold handleMessage
    simp only [hcm, hsm, hn, hcreate]
  | ok result =>
    rw [handleMessage_create eve env m cid tid text cm result hcm hsm hcreate]
    cases eve.SendMessage result.SessionID text with
    | error err =>
      by_cases hc : Contains err (str "not found") = true
      · exact ⟨_, by simp only [hc, if_true]; rfl⟩
      · exact ⟨_, by simp only [hc, if_false]; rfl⟩
    | ok resp => exact ⟨_, rfl⟩

/-- When `SendMessage` fails without the "not found" signal: on a thread with a session
`handleMessage` leaves the store as it was; on a thread without session it leaves the
store as `SetSession` made it for the session just created. -/
theorem handleMessage_send_error (eve : EveClient) (env : Env) (m : Mappings)
    (cid tid text : GoString) (cm : ChatMapping) (hcm : m.GetChatMapping cid = some cm) :
    (∀ sm err, m.GetSession cid tid = some sm →
      eve.SendMessage sm.EveSessionID text = .error err →
      Contains err (str "not found") = false →
      handleMessage eve env m cid tid text =
        (m, [Event.sendMessage sm.EveSessionID text, Event.reply (str "Error: " ++ err)])) ∧
    (∀ result err, m.GetSession cid tid = none →
      eve.CreateSession cm.ProjectID (sessionNameOf tid) = .ok result →
      eve.SendMessage result.SessionID text = .error err →
      Contains err (str "not found") = false →
      handleMessage eve env m cid tid text =
        ((m.SetSession (env.saveErr 0) (env.now 0) cid tid result.SessionID).1,
          [Event.createSession cm.ProjectID (sessionNameOf tid),
            Event.setSession cid tid result.SessionID,
            Event.sendMessage result.SessionID text, Event.reply (str "Error: " ++ err)]) ∧
      (handleMessage eve env m cid tid text).1.GetSession cid tid =
        some { EveSessionID := result.SessionID, LastActive := env.now 0 } ∧
      (∃ cm', (handleMessage eve env m cid tid text).1.GetChatMapping cid = some cm' ∧
        cm'.ProjectID = cm.ProjectID ∧ cm'.ProjectName = cm.ProjectName) ∧
      (∀ tid', tid' ≠ tid →
        (handleMessage eve env m cid tid text).1.GetSession cid tid' = m.GetSession cid tid') ∧
      (∀ cid', cid' ≠ cid →
        (handleMessage eve env m cid tid text).1.data.ChatMappings cid' =
          m.data.ChatMappings cid')) := by
  constructor
  · intro sm err hsm hsend hnf
    rw [handleMessage_active eve env m cid tid text cm sm hcm hsm, hsend]
    simp [hnf]
  · intro result err hsm hcreate hsend hnf
    have hh : handleMessage eve env m cid tid text =
        ((m.SetSession (env.saveErr 0) (env.now 0) cid tid result.SessionID).1,
          [Event.createSession cm.ProjectID (sessionNameOf tid),
            Event.setSession cid tid result.SessionID,
            Event.sendMessage result.SessionID text, Event.reply (str "Error: " ++ err)]) := by
      rw [handleMessage_create eve env m cid tid text cm result hcm hsm hcreate, hsend]
      simp [hnf]
    rw [hh]
    exact ⟨rfl, setSession_bound m _ _ cid tid result.SessionID cm hcm⟩

/-- When `SendMessage` fails with the "not found" signal on a thread with a session,
`handleMessage` sends once, clears that session only and replies that the session
expired; the next `handleMessage` creates a session and stores it. -/
theorem handleMessage_not_found (eve : EveClient) (env : Env) (m : Mappings)
    (cid tid text : GoString) (cm : ChatMapping) (sm : SessionMapping) (err : GoString)
    (hcm : m.GetChatMapping cid = some cm) (hsm : m.GetSession cid tid = some sm)
    (hsend : eve.SendMessage sm.EveSessionID text = .error err)
    (hnf : Contains err (str "not found") = true) :
    (handleMessage eve env m cid tid text).2 =
      [Event.sendMessage sm.EveSessionID text, Event.clearSession cid tid,
        Event.reply
          (str "Session expired. Send your message again to start a new conversation.")] ∧
    (handleMessage eve env m cid tid text).1 = (m.ClearSession (env.saveErr 1) cid tid).1 ∧
    (handleMessage eve env m cid tid text).1.GetSession cid tid = none ∧
    (∃ cm', (handleMessage eve env m cid tid text).1.GetChatMapping cid = some cm' ∧
      cm'.ProjectID = cm.ProjectID ∧ cm'.ProjectName = cm.ProjectName) ∧
    (∀ tid', tid' ≠ tid →
      (handleMessage eve env m cid tid text).1.GetSession cid tid' = m.GetSession cid tid') ∧
    (∀ cid', cid' ≠ cid →
      (handleMessage eve env m cid tid text).1.data.ChatMappings cid' =
        m.data.ChatMappings cid') ∧
    (∀ (eve2 : EveClient) (env2 : Env) (text2 : GoString),
      ∃ rest, (handleMessage eve2 env2 (handleMessage eve env m cid tid text).1
          cid tid text2).2 = Event.createSession cm.ProjectID (sessionNameOf tid) :: rest) ∧
    (∀ (eve2 : EveClient) (env2 : Env) (text2 : GoString) (result : CreateSessionResponse),
      eve2.CreateSession cm.ProjectID (sessionNameOf tid) = .ok result →
      (∃ rest, (handleMessage eve2 env2 (handleMessage eve env m cid tid text).1
          cid tid text2).2 =
        Event.createSession cm.ProjectID (sessionNameOf tid) ::
          Event.setSession cid tid result.SessionID ::
          Event.sendMessage result.SessionID text2 :: rest) ∧
      (∀ err2, eve2.SendMessage result.SessionID text2 = .error err2 →
        Contains err2 (str "not found") = false →
        (handleMessage eve2 env2 (handleMessage eve env m cid tid text).1
          cid tid text2).1.GetSession cid tid =
          some { EveSessionID := result.SessionID, LastActive := env2.now 0 }) ∧
      (∀ resp, eve2.SendMessage result.SessionID text2 = .ok resp →
        (handleMessage eve2 env2 (handleMessage eve env m cid tid text).1
          cid tid text2).1.GetSession cid tid =
          some { EveSessionID := result.SessionID, LastActive := env2.now 1 })) := by
  have hh : handleMessage eve env m cid tid text =
      ((m.ClearSession (env.saveErr 1) cid tid).1,
        [Event.sendMessage sm.EveSessionID text, Event.clearSession cid tid,
          Event.reply
            (str "Session expired. Send your message again to start a new conversation.")]) := by
    rw [handleMessage_active eve env m cid tid text cm sm hcm hsm, hsend]
    simp [hnf]
  rw [hh]
  obtain ⟨c1, ⟨cm', c2, c3, c4⟩, c5, c6⟩ := clearSession_bound m (env.saveErr 1) cid tid cm hcm
  refine ⟨rfl, rfl, c1, ⟨cm', c2, c3, c4⟩, c5, c6, ?_, ?_⟩
  · intro eve2 env2 text2
    rw [← c3]
    exact handleMessage_create_first eve2 env2 _ cid tid text2 cm' c2 c1
  intro eve2 env2 text2 result hcreate
  rw [← c3] at hcreate
  have hstep := handleMessage_create eve2 env2 _ cid tid text2 cm' result c2 c1 hcreate
  have hset := setSession_bound (m.ClearSession (env.saveErr 1) cid tid).1 (env2.saveErr 0)
    (env2.now 0) cid tid result.SessionID cm' c2
  obtain ⟨s1, ⟨cm2, s2, -, -⟩, -, -⟩ := hset
  have hset2 := setSession_bound
    ((m.ClearSession (env.saveErr 1) cid tid).1.SetSession (env2.saveErr 0) (env2.now 0)
      cid tid result.SessionID).1 (env2.saveErr 1) (env2.now 1) cid tid result.SessionID cm2 s2
  simp only [] at hstep ⊢
  rw [hstep, ← c3]
  refine ⟨?_, ?_, ?_⟩
  · cases eve2.SendMessage result.SessionID text2 with
    | error err2 =>
      by_cases hc : Contains err2 (str "not found") = true
      · exact ⟨[Event.clearSession cid tid, Event.reply
          (str "Session expired. Send your message again to start a new conversation.")],
          by simp [hc]⟩
      · exact ⟨[Event.reply (str "Error: " ++ err2)], by simp [hc]⟩
    | ok resp =>
      exact ⟨Event.setSession cid tid result.SessionID ::
        (match sendLongMessage env2.replyErr resp.Response with
          | some res => res.1
          | none => []).map Event.reply, by simp⟩
  · intro err2 hsend2 hnf2
    rw [hsend2]
    simp only [hnf2]
    exact s1
  · intro resp hsend2
    rw [hsend2]
    exact hset2.1

/-! ## Project resolution -/

/-- With an exact match among the non-disabled projects the loop of `handleLink` returns
the first one. -/
theorem linkLoop_exact (toLower : GoString → GoString) (ql : GoString) :
    ∀ (projects acc : List EveProject) (p : EveProject),
      (projects.filter (fun p => !p.Disabled)).find?
          (fun p => decide (toLower p.Name = ql)) = some p →
      (linkLoop toLower ql projects acc).1 = some p := by
  intro projects
  induction projects with
  | nil => intro acc p h; simp at h
  | cons x rest ih =>
    intro acc p h
    unfold linkLoop
    by_cases hd : x.Disabled = true
    · rw [if_pos hd]
      rw [List.filter_cons_of_neg (by simp [hd])] at h
      exact ih acc p h
    · rw [if_neg hd]
      rw [List.filter_cons_of_pos (by simpa using hd)] at h
      by_cases he : toLower x.Name = ql
      · rw [if_pos he]
        rw [List.find?_cons_of_pos _ (by simpa using he)] at h
        exact h
      · rw [if_neg he]
        rw [List.find?_cons_of_neg _ (by simpa using he)] at h
        by_cases hc : Contains (toLower x.Name) ql = true
        · rw [if_pos hc]; exact ih _ p h
        · rw [if_neg hc]; exact ih _ p h

/-- Without an exact match among the non-disabled projects the loop of `handleLink`
collects the non-disabled projects whose name contains the query, in list order. -/
theorem linkLoop_none (toLower : GoString → GoString) (ql : GoString) :
    ∀ (projects acc : List EveProject),
      (projects.filter (fun p => !p.Disabled)).find?
          (fun p => decide (toLower p.Name = ql)) = none →
      linkLoop toLower ql projects acc =
        (none, acc ++ (projects.filter (fun p => !p.Disabled)).filter
          (fun p => Contains (toLower p.Name) ql)) := by
  intro projects
  induction projects with
  | nil => intro acc _; simp [linkLoop]
  | cons x rest ih =>
    intro acc h
    unfold linkLoop
    by_cases hd : x.Disabled = true
    · rw [if_pos hd]
      rw [List.filter_cons_of_neg (by simp [hd])] at h ⊢
      exact ih acc h
    · rw [if_neg hd]
      rw [List.filter_cons_of_pos (by simpa using hd)] at h ⊢
      by_cases he : toLower x.Name = ql
      · rw [List.find?_cons_of_pos _ (by simpa using he)] at h
        exact absurd h (by simp)
      · rw [if_neg he]
        rw [List.find?_cons_of_neg _ (by simpa using he)] at h
        by_cases hc : Contains (toLower x.Name) ql = true
        · rw [if_pos hc, ih _ h]
          simp [List.filter_cons, hc]
        · rw [if_neg hc, ih _ h]
          simp [List.filter_cons, hc]

/-- The method `handleLink` does what the two-phase resolver over the non-disabled
projects decides. -/
theorem handleLink_resolve (toLower quote : GoString → GoString) (eve : EveClient)
    (saveErr : Option GoString) (m : Mappings) (cid : GoString) (args : List GoString)
    (projects : List EveProject) (hargs : args ≠ [])
    (hlist : eve.ListProjects = .ok projects) :
    handleLink toLower quote eve saveErr m cid args =
      linkOutcome quote saveErr m cid (Join args (str " "))
        (resolve toLower projects (Join args (str " "))) := by
  have hlen : ¬ args.length = 0 := by
    intro h; exact hargs (List.length_eq_zero.mp h)
  unfold handleLink resolve
  rw [if_neg hlen]
  simp only [hlist]
  cases hfind : (projects.filter (fun p => !p.Disabled)).find?
      (fun p => decide (toLower p.Name = toLower (Join args (str " ")))) with
  | some p =>
    have h1 := linkLoop_exact toLower _ projects [] p hfind
    simp only [h1, Option.isNone_some, Bool.false_eq_true, false_and, if_false, linkOutcome,
      Mappings.LinkChat]
    cases saveErr <;> rfl
  | none =>
    have h1 := linkLoop_none toLower _ projects [] hfind
    rw [List.nil_append] at h1
    simp only [h1, Option.isNone_none, true_and]
    cases hsub : (projects.filter (fun p => !p.Disabled)).filter
        (fun p => Contains (toLower p.Name) (toLower (Join args (str " ")))) with
    | nil => simp [linkOutcome]
    | cons p rest =>
      cases rest with
      | nil =>
        simp only [List.length_singleton, if_true, List.head?_cons, Option.isNone_some,
          Bool.false_eq_true, false_and, if_false, linkOutcome, Mappings.LinkChat]
        cases saveErr <;> rfl
      | cons q rest' =>
        simp [linkOutcome, List.map_map, Function.comp_def]

/-- The resolver never links and never lists a disabled project. -/
theorem resolve_not_disabled (toLower : GoString → GoString) (projects : List EveProject)
    (query : GoString) :
    (∀ p, resolve toLower projects query = Resolution.linked p →
      p ∈ projects ∧ p.Disabled = false) ∧
    (∀ names, resolve toLower projects query = Resolution.ambiguous names →
      names = ((projects.filter (fun p => !p.Disabled)).filter
        (fun p => Contains (toLower p.Name) (toLower query))).map (fun p => p.Name) ∧
      2 ≤ names.length) := by
  unfold resolve
  simp only []
  cases hfind : (projects.filter (fun p => !p.Disabled)).find?
      (fun p => decide (toLower p.Name = toLower query)) with
  | some p =>
    have hmem := List.mem_of_find?_eq_some hfind
    simp only [List.mem_filter, Bool.not_eq_true'] at hmem
    refine ⟨?_, ?_⟩
    · intro p' hp'
      injection hp' with hp'
      subst hp'
      exact hmem
    · intro names hn; exact absurd hn (by simp)
  | none =>
    cases hsub : (projects.filter (fun p => !p.Disabled)).filter
        (fun p => Contains (toLower p.Name) (toLower query)) with
    | nil =>
      exact ⟨fun p hp => absurd hp (by simp), fun n hn => absurd hn (by simp)⟩
    | cons p rest =>
      have hmem : p ∈ (projects.filter (fun p => !p.Disabled)).filter
          (fun p => Contains (toLower p.Name) (toLower query)) := by
        rw [hsub]; exact List.mem_cons_self _ _
      simp only [List.mem_filter, Bool.not_eq_true'] at hmem
      cases rest with
      | nil =>
        refine ⟨?_, fun n hn => absurd hn (by simp)⟩
        intro p' hp'
        injection hp' with hp'
        subst hp'
        exact hmem.1
      | cons q rest' =>
        refine ⟨fun p hp => absurd hp (by simp), ?_⟩
        intro names hn
        injection hn with hn
        subst hn
        exact ⟨rfl, by simp⟩

/-! ## Classification of the message endpoint's responses -/

/-- The method `SendMessage` on a response of the message endpoint: by status for 409 and
504, otherwise by whether the body decodes and then by status. -/
theorem sendMessage_response (e : EveClient) (sessionID text : GoString) (status : Nat)
    (body : GoString) (decoded : Except GoString SendMessageResponse)
    (hpost : e.postMessage sessionID text = HttpResult.response status body decoded) :
    (status = 409 →
      e.SendMessage sessionID text =
        .error (str "session is busy processing another message")) ∧
    (status = 504 → e.SendMessage sessionID text = .error (str "response timed out")) ∧
    (status ≠ 409 → status ≠ 504 → ∀ err, decoded = .error err →
      e.SendMessage sessionID text = .error (str "failed to decode response: " ++ err)) ∧
    (status ≠ 409 → status ≠ 504 → status ≠ 200 → ∀ result, decoded = .ok result →
      (result.Error ≠ [] → e.SendMessage sessionID text = .error result.Error) ∧
      (result.Error = [] →
        e.SendMessage sessionID text =
          .error (str "Eve returned " ++ formatInt status))) ∧
    (status = 200 → ∀ result, decoded = .ok result →
      e.SendMessage sessionID text = .ok result) ∧
    (∀ result, e.SendMessage sessionID text = .ok result →
      status = 200 ∧ decoded = .ok result) := by
  unfold EveClient.SendMessage
  rw [hpost]
  simp only []
  refine ⟨?_, ?_, ?_, ?_, ?_, ?_⟩
  · intro h; rw [if_pos h]
  · intro h; rw [if_neg (by omega), if_pos h]
  · intro h1 h2 err hd; rw [if_neg h1, if_neg h2, hd]
  · intro h1 h2 h3 result hd
    rw [if_neg h1, if_neg h2, hd]
    simp only [if_pos h3]
    exact ⟨fun h => by rw [if_neg h], fun h => by rw [if_pos h]⟩
  · intro h result hd
    rw [if_neg (by omega), if_neg (by omega), hd]
    simp only [h, ne_eq, not_true_eq_false, if_false]
  · intro result h
    by_cases h1 : status = 409
    · rw [if_pos h1] at h; exact absurd h (by simp)
    rw [if_neg h1] at h
    by_cases h2 : status = 504
    · rw [if_pos h2] at h; exact absurd h (by simp)
    rw [if_neg h2] at h
    cases decoded with
    | error err => exact absurd h (by simp)
    | ok r =>
      simp only [] at h
      by_cases h3 : status = 200
      · rw [if_neg (by simpa using h3)] at h
        injection h with h
        exact ⟨h3, by rw [h]⟩
      · rw [if_pos h3] at h; exact absurd h (by simp)

/-! ## The claims -/

theorem accentedText_drop : accentedText.drop 6143 = [97] := by
  unfold accentedText
  rw [← List.append_assoc, ← List.append_assoc]
  exact List.drop_left' (by simp only [List.length_append, repeatBlock_length]; rfl)

/-- C1, counterexample: the text of 4096 letters `a` followed by one line break has 4097
runes, more than 4096, and `sendLongMessage` hands it to `c.Reply` as a single chunk, the
4096 letters. -/
theorem c1_trailing_break_one_chunk :
    4096 < RuneCountInString trailingBreakText ∧
      sendLongMessage replyOk trailingBreakText = some ([repeatBlock 4096 [97]], none) :=
  ⟨by rw [trailingBreakText_runes]; decide, trailingBreakText_chunks⟩

/-- C1, amended: for every response text and whatever `c.Reply` returns, `sendLongMessage`
returns and every chunk it hands to `c.Reply` has at most 4096 runes; a text of more than
4096 runes whose first `c.Reply` succeeds is handed over as at least two chunks exactly
when some byte after the first cut is not a line break. -/
theorem c1_chunks_within_rune_limit (replyErr : Nat → Option GoString) (text : GoString) :
    ∃ res, sendLongMessage replyErr text = some res ∧
      (∀ c ∈ res.1, RuneCountInString c ≤ 4096) ∧
      (4096 < RuneCountInString text → replyErr 0 = none →
        (2 ≤ res.1.length ↔ ∃ b ∈ text.drop (cutIndex text).toNat, b ≠ 10)) :=
  sendLongMessage_runes replyErr text

/-- C1, witness: the accented text, 4097 runes ending in a letter, is handed over as at
least two chunks of at most 4096 runes. -/
theorem c1_chunks_within_rune_limit_witness :
    4096 < RuneCountInString accentedText ∧ replyOk 0 = none ∧
      ∃ res, sendLongMessage replyOk accentedText = some res ∧
        (∀ c ∈ res.1, RuneCountInString c ≤ 4096) ∧ 2 ≤ res.1.length := by
  have hr : 4096 < RuneCountInString accentedText := by rw [accentedText_runes]; decide
  obtain ⟨res, h1, h2, h3⟩ := c1_chunks_within_rune_limit replyOk accentedText
  refine ⟨hr, rfl, res, h1, h2, (h3 hr rfl).mpr ?_⟩
  rw [accentedText_cut, accentedText_drop]
  exact ⟨97, by simp, by decide⟩

/-- C2: for every response text, when every `c.Reply` succeeds, `sendLongMessage` returns
without error and its chunks, each followed by a separator made only of line breaks,
concatenate in emission order to the text. -/
theorem c2_chunks_rejoin_to_text (replyErr : Nat → Option GoString)
    (hok : ∀ k, replyErr k = none) (text : GoString) :
    ∃ res seps, sendLongMessage replyErr text = some res ∧ res.2 = none ∧
      seps.length = res.1.length ∧ (∀ s ∈ seps, ∀ b ∈ s, b = 10) ∧
      rejoin res.1 seps = text :=
  sendLongMessage_rejoin replyErr hok text

/-- C2, witness: the chunks of the text of 4096 letters and a line break rejoin to it. -/
theorem c2_chunks_rejoin_to_text_witness :
    (∀ k, replyOk k = none) ∧
      ∃ res seps, sendLongMessage replyOk trailingBreakText = some res ∧ res.2 = none ∧
        seps.length = res.1.length ∧ (∀ s ∈ seps, ∀ b ∈ s, b = 10) ∧
        rejoin res.1 seps = trailingBreakText :=
  ⟨fun _ => rfl, c2_chunks_rejoin_to_text replyOk (fun _ => rfl) trailingBreakText⟩

/-- C8: for every valid UTF-8 response text and whatever `c.Reply` returns,
`sendLongMessage` returns and every chunk it hands to `c.Reply` is valid UTF-8; in every
iteration of its loop, from any call of `c.Reply` on, the remaining text is valid and
the cut (paragraph break, line break or hard split at `runeByteIndex`) lies on a rune
boundary of it, so that the chunk before the cut and the remainder after it are valid:
no chunk starts or ends inside a multi-byte character. -/
theorem c8_chunks_valid_utf8 (replyErr : Nat → Option GoString) (text : GoString)
    (hv : ValidString text = true) :
    (∃ res, sendLongMessage replyErr text = some res ∧
      (∀ c ∈ res.1, ValidString c = true) ∧
      (maxLen < RuneCountInString text → LoopChunks BoundaryCut replyErr 0 text res.1)) ∧
    (maxLen < RuneCountInString text → Boundary text (cutIndex text).toNat) ∧
    (∀ fuel k, text.length ≤ fuel →
      ∃ res, sendLoop replyErr fuel k text = some res ∧
        (∀ c ∈ res.1, ValidString c = true) ∧
        LoopChunks BoundaryCut replyErr k text res.1) := by
  refine ⟨?_, (sendLongMessage_valid replyErr text hv).2,
    fun fuel k hf => sendLoop_valid replyErr fuel k text hv hf⟩
  by_cases hgt : maxLen < RuneCountInString text
  · obtain ⟨res, h1, h2, h3⟩ := sendLoop_valid replyErr text.length 0 text hv (le_refl _)
    exact ⟨res, by rw [sendLongMessage_eq_loop _ _ hgt]; exact h1, h2, fun _ => h3⟩
  · obtain ⟨res, h1, h2⟩ := (sendLongMessage_valid replyErr text hv).1
    exact ⟨res, h1, h2, fun h => absurd h hgt⟩

/-- C8, witness: the accented text is valid UTF-8 of 4097 runes; its loop cuts once, by
the hard split at byte 6143 behind 2047 two-byte runes, and hands over two valid chunks,
the first 6143 bytes and the final letter. -/
theorem c8_chunks_valid_utf8_witness :
    ValidString accentedText = true ∧ maxLen < RuneCountInString accentedText ∧
      sendLongMessage replyOk accentedText = some ([accentedText.take 6143, [97]], none) ∧
      (∀ c ∈ [accentedText.take 6143, [97]], ValidString c = true) ∧
      LoopChunks BoundaryCut replyOk 0 accentedText [accentedText.take 6143, [97]] ∧
      Boundary accentedText 6143 := by
  have hgt : maxLen < RuneCountInString accentedText := by
    rw [accentedText_runes]; decide
  obtain ⟨⟨res, h1, h2, h3⟩, h4, -⟩ :=
    c8_chunks_valid_utf8 replyOk accentedText accentedText_valid
  have hres : res = ([accentedText.take 6143, [97]], none) :=
    Option.some.inj (h1.symm.trans accentedText_result)
  subst hres
  have h5 := h4 hgt
  rw [accentedText_cut] at h5
  exact ⟨accentedText_valid, hgt, accentedText_result, h2, h3 hgt, h5⟩

/-- C9, counterexample: in the accented text the only line break of the window of 4096
runes is rune 2048, at the midpoint of the window, so the midpoint rule counted in runes
ends the chunk there (at byte 2048) and nowhere else; `sendLongMessage` instead hands
over the first 6143 bytes, the whole window. -/
theorem c9_midpoint_in_runes_fails :
    4096 < RuneCountInString accentedText ∧
      (∀ c, MidpointRuleRunes accentedText c ↔ c = 2048) ∧
      ∃ res rest, sendLongMessage replyOk accentedText = some res ∧
        res.1 = accentedText.take 6143 :: rest ∧
        accentedText.take 6143 ≠ accentedText.take 2048 :=
  ⟨by rw [accentedText_runes]; decide, accentedText_rule_runes, accentedText_chunks⟩

/-- C9, amended: in every iteration of the loop of `sendLongMessage`, from any call of
`c.Reply` on, a remaining text of more than 4096 runes is cut by the midpoint rule
counted in bytes: the chunk ends at the last double line break of the window (the first
4096 runes) when that break's byte offset is at least half the window's byte length,
otherwise at the last single line break under the same condition, otherwise it is the
whole window, exactly 4096 runes; the loop goes on with the remainder without its
leading line breaks, and a remaining text of at most 4096 runes is the last chunk. For
a text of more than 4096 runes `sendLongMessage` is that loop from the first call. -/
theorem c9_midpoint_in_bytes (replyErr : Nat → Option GoString) (fuel k : Nat)
    (text : GoString) (hf : text.length ≤ fuel) :
    (∃ res, sendLoop replyErr fuel k text = some res ∧
      LoopChunks MidpointCut replyErr k text res.1) ∧
    (4096 < RuneCountInString text →
      ∃ res rest c, sendLongMessage replyErr text = some res ∧
        LoopChunks MidpointCut replyErr 0 text res.1 ∧
        res.1 = text.take c :: rest ∧ MidpointRuleBytes text c ∧
        (c = runeByteIndex text maxLen → RuneCountInString (text.take c) = 4096)) := by
  refine ⟨sendLoop_midpoint replyErr fuel k text hf, ?_⟩
  intro h
  obtain ⟨res, rest, c, h1, h2, h3, h4⟩ := sendLongMessage_midpoint replyErr text h
  obtain ⟨res', h1', hlc⟩ := sendLoop_midpoint replyErr text.length 0 text (le_refl _)
  rw [← sendLongMessage_eq_loop replyErr text h] at h1'
  have : res = res' := Option.some.inj (h1.symm.trans h1')
  subst this
  exact ⟨res, rest, c, h1, hlc, h2, h3, h4⟩

/-- C9, witness: the accented text, 6144 bytes and 4097 runes, is cut once, at byte 6143,
and the final letter is the last chunk; both follow from the midpoint rule in bytes. -/
theorem c9_midpoint_in_bytes_witness :
    accentedText.length ≤ 6144 ∧ 4096 < RuneCountInString accentedText ∧
      sendLongMessage replyOk accentedText = some ([accentedText.take 6143, [97]], none) ∧
      LoopChunks MidpointCut replyOk 0 accentedText [accentedText.take 6143, [97]] ∧
      ∃ res, sendLoop replyOk 6144 0 accentedText = some res ∧
        LoopChunks MidpointCut replyOk 0 accentedText res.1 := by
  have hl : accentedText.length ≤ 6144 := by rw [accentedText_length]
  have hgt : 4096 < RuneCountInString accentedText := by rw [accentedText_runes]; decide
  obtain ⟨h1, h2⟩ := c9_midpoint_in_bytes replyOk 6144 0 accentedText hl
  obtain ⟨res, rest, c, h3, h4, -⟩ := h2 hgt
  have hres : res = ([accentedText.take 6143, [97]], none) :=
    Option.some.inj (h3.symm.trans accentedText_result)
  subst hres
  exact ⟨hl, hgt, accentedText_result, h4, h1⟩

/-- C10, the code at the failing input: the text of 2049 emoji U+1F600 has 2049 runes, so
`sendLongMessage` hands it to `c.Reply` as one chunk, which is 4098 UTF-16 code units
long, more than 4096. -/
theorem c10_emoji_chunk_exceeds_utf16_limit :
    RuneCountInString emojiText = 2049 ∧
      sendLongMessage replyOk emojiText = some ([emojiText], none) ∧
      utf16Len emojiText = 4098 ∧ 4096 < utf16Len emojiText :=
  ⟨emojiText_runes, emojiText_chunks.1, emojiText_utf16, by rw [emojiText_utf16]; decide⟩

/-- C3, counterexample: chat `c1` is bound and its default thread has no session; the
backend creates session `s1` and answers the message with status 504, so `SendMessage`
fails with the Timeout error, which does not hold "not found"; after `handleMessage` the
store holds the session `s1` for the thread, which it did not hold before. -/
theorem c3_store_changes_without_session :
    (∃ cm, linkedStore.GetChatMapping (str "c1") = some cm) ∧
      linkedStore.GetSession (str "c1") (str "default") = none ∧
      timeoutEve.SendMessage (str "s1") (str "hi") = .error (str "response timed out") ∧
      Contains (str "response timed out") (str "not found") = false ∧
      (handleMessage timeoutEve quietEnv linkedStore (str "c1") (str "default")
        (str "hi")).1.GetSession (str "c1") (str "default") =
        some { EveSessionID := str "s1", LastActive := 7 } :=
  ⟨⟨_, rfl⟩, rfl, rfl, by decide, rfl⟩

/-- C3, amended: for every store state with the chat bound and every failure of
`SendMessage` whose text does not hold "not found": when the thread has a session,
`handleMessage` leaves the store exactly as it was and replies with the error; when the
thread has no session and `CreateSession` succeeds, the store afterwards is the store
before with the new session stored for that thread by `SetSession`, the binding's
project and every other thread and chat as before. -/
theorem c3_send_error_store (eve : EveClient) (env : Env) (m : Mappings)
    (cid tid text : GoString) (cm : ChatMapping) (hcm : m.GetChatMapping cid = some cm) :
    (∀ sm err, m.GetSession cid tid = some sm →
      eve.SendMessage sm.EveSessionID text = .error err →
      Contains err (str "not found") = false →
      handleMessage eve env m cid tid text =
        (m, [Event.sendMessage sm.EveSessionID text, Event.reply (str "Error: " ++ err)])) ∧
    (∀ result err, m.GetSession cid tid = none →
      eve.CreateSession cm.ProjectID (sessionNameOf tid) = .ok result →
      eve.SendMessage result.SessionID text = .error err →
      Contains err (str "not found") = false →
      handleMessage eve env m cid tid text =
        ((m.SetSession (env.saveErr 0) (env.now 0) cid tid result.SessionID).1,
          [Event.createSession cm.ProjectID (sessionNameOf tid),
            Event.setSession cid tid result.SessionID,
            Event.sendMessage result.SessionID text, Event.reply (str "Error: " ++ err)]) ∧
      (handleMessage eve env m cid tid text).1.GetSession cid tid =
        some { EveSessionID := result.SessionID, LastActive := env.now 0 } ∧
      (∃ cm', (handleMessage eve env m cid tid text).1.GetChatMapping cid = some cm' ∧
        cm'.ProjectID = cm.ProjectID ∧ cm'.ProjectName = cm.ProjectName) ∧
      (∀ tid', tid' ≠ tid →
        (handleMessage eve env m cid tid text).1.GetSession cid tid' = m.GetSession cid tid') ∧
      (∀ cid', cid' ≠ cid →
        (handleMessage eve env m cid tid text).1.data.ChatMappings cid' =
          m.data.ChatMappings cid')) :=
  handleMessage_send_error eve env m cid tid text cm hcm

/-- C3, witness: on the store with the session `s0` a timeout leaves the store as it
was. -/
theorem c3_send_error_store_witness :
    (∃ cm, activeStore.GetChatMapping (str "c1") = some cm) ∧
      activeStore.GetSession (str "c1") (str "default") =
        some { EveSessionID := str "s0", LastActive := 1 } ∧
      timeoutEve.SendMessage (str "s0") (str "hi") = .error (str "response timed out") ∧
      Contains (str "response timed out") (str "not found") = false ∧
      handleMessage timeoutEve quietEnv activeStore (str "c1") (str "default") (str "hi") =
        (activeStore, [Event.sendMessage (str "s0") (str "hi"),
          Event.reply (str "Error: " ++ str "response timed out")]) :=
  ⟨⟨_, rfl⟩, rfl, rfl, by decide,
    (c3_send_error_store timeoutEve quietEnv activeStore (str "c1") (str "default") (str "hi")
      _ rfl).1 { EveSessionID := str "s0", LastActive := 1 } (str "response timed out")
      rfl rfl (by decide)⟩

/-- C4: for every bound chat and thread with a session, when `SendMessage` fails with a
text holding "not found", `handleMessage` sends the message once, clears the session and
replies with the session-expired text; the store afterwards has no session for that
thread, the same project for the chat, and every other thread and chat as before; the
next `handleMessage` for that chat and thread first calls `CreateSession` and, when that
succeeds, stores the session it returns and sends the message with it. -/
theorem c4_not_found_clears_session (eve : EveClient) (env : Env) (m : Mappings)
    (cid tid text : GoString) (cm : ChatMapping) (sm : SessionMapping) (err : GoString)
    (hcm : m.GetChatMapping cid = some cm) (hsm : m.GetSession cid tid = some sm)
    (hsend : eve.SendMessage sm.EveSessionID text = .error err)
    (hnf : Contains err (str "not found") = true) :
    (handleMessage eve env m cid tid text).2 =
      [Event.sendMessage sm.EveSessionID text, Event.clearSession cid tid,
        Event.reply
          (str "Session expired. Send your message again to start a new conversation.")] ∧
    (handleMessage eve env m cid tid text).1 = (m.ClearSession (env.saveErr 1) cid tid).1 ∧
    (handleMessage eve env m cid tid text).1.GetSession cid tid = none ∧
    (∃ cm', (handleMessage eve env m cid tid text).1.GetChatMapping cid = some cm' ∧
      cm'.ProjectID = cm.ProjectID ∧ cm'.ProjectName = cm.ProjectName) ∧
    (∀ tid', tid' ≠ tid →
      (handleMessage eve env m cid tid text).1.GetSession cid tid' = m.GetSession cid tid') ∧
    (∀ cid', cid' ≠ cid →
      (handleMessage eve env m cid tid text).1.data.ChatMappings cid' =
        m.data.ChatMappings cid') ∧
    (∀ (eve2 : EveClient) (env2 : Env) (text2 : GoString),
      ∃ rest, (handleMessage eve2 env2 (handleMessage eve env m cid tid text).1
          cid tid text2).2 = Event.createSession cm.ProjectID (sessionNameOf tid) :: rest) ∧
    (∀ (eve2 : EveClient) (env2 : Env) (text2 : GoString) (result : CreateSessionResponse),
      eve2.CreateSession cm.ProjectID (sessionNameOf tid) = .ok result →
      (∃ rest, (handleMessage eve2 env2 (handleMessage eve env m cid tid text).1
          cid tid text2).2 =
        Event.createSession cm.ProjectID (sessionNameOf tid) ::
          Event.setSession cid tid result.SessionID ::
          Event.sendMessage result.SessionID text2 :: rest) ∧
      (∀ err2, eve2.SendMessage result.SessionID text2 = .error err2 →
        Contains err2 (str "not found") = false →
        (handleMessage eve2 env2 (handleMessage eve env m cid tid text).1
          cid tid text2).1.GetSession cid tid =
          some { EveSessionID := result.SessionID, LastActive := env2.now 0 }) ∧
      (∀ resp, eve2.SendMessage result.SessionID text2 = .ok resp →
        (handleMessage eve2 env2 (handleMessage eve env m cid tid text).1
          cid tid text2).1.GetSession cid tid =
          some { EveSessionID := result.SessionID, LastActive := env2.now 1 })) :=
  handleMessage_not_found eve env m cid tid text cm sm err hcm hsm hsend hnf

/-- C4, witness: the store with the session `s0` and a backend answering 404 with the
message `Session not found`. -/
theorem c4_not_found_clears_session_witness :
    (∃ cm, activeStore.GetChatMapping (str "c1") = some cm) ∧
      activeStore.GetSession (str "c1") (str "default") =
        some { EveSessionID := str "s0", LastActive := 1 } ∧
      expiredEve.SendMessage (str "s0") (str "hi") = .error (str "Session not found") ∧
      Contains (str "Session not found") (str "not found") = true ∧
      (handleMessage expiredEve quietEnv activeStore (str "c1") (str "default")
        (str "hi")).2 =
        [Event.sendMessage (str "s0") (str "hi"),
          Event.clearSession (str "c1") (str "default"),
          Event.reply
            (str "Session expired. Send your message again to start a new conversation.")] ∧
      (handleMessage expiredEve quietEnv activeStore (str "c1") (str "default")
        (str "hi")).1.GetSession (str "c1") (str "default") = none :=
  have h := c4_not_found_clears_session expiredEve quietEnv activeStore (str "c1")
    (str "default") (str "hi") _ { EveSessionID := str "s0", LastActive := 1 }
    (str "Session not found") rfl rfl rfl (by decide)
  ⟨⟨_, rfl⟩, rfl, rfl, by decide, h.1, h.2.2.1⟩

/-- C5: for every store state and chat with no binding, `SetSession` and `ClearSession`
return no error and the store as it was; afterwards the chat still has no binding and no
session, and every chat's binding is as before. -/
theorem c5_session_ops_unbound_noop (m : Mappings) (saveErr : Option GoString) (now : Nat)
    (cid tid sid : GoString) (h : m.GetChatMapping cid = none) :
    m.SetSession saveErr now cid tid sid = (m, none) ∧
      m.ClearSession saveErr cid tid = (m, none) ∧
      (m.SetSession saveErr now cid tid sid).1.GetChatMapping cid = none ∧
      (m.SetSession saveErr now cid tid sid).1.GetSession cid tid = none ∧
      (m.ClearSession saveErr cid tid).1.GetChatMapping cid = none ∧
      (m.ClearSession saveErr cid tid).1.GetSession cid tid = none ∧
      (∀ cid', (m.SetSession saveErr now cid tid sid).1.GetChatMapping cid' =
        m.GetChatMapping cid') ∧
      (∀ cid', (m.ClearSession saveErr cid tid).1.GetChatMapping cid' =
        m.GetChatMapping cid') := by
  obtain ⟨h1, h2⟩ := session_ops_unbound m saveErr now cid tid sid h
  have hs : m.GetSession cid tid = none := by
    rw [getChatMapping_eq] at h
    unfold Mappings.GetSession
    rw [h]
  rw [h1, h2]
  exact ⟨rfl, rfl, h, hs, h, hs, fun _ => rfl, fun _ => rfl⟩

/-- C5, witness: the store in which only chat `c1` is bound, and the unbound chat `c2`,
with a failing save. -/
theorem c5_session_ops_unbound_noop_witness :
    linkedStore.GetChatMapping (str "c2") = none ∧
      linkedStore.SetSession (some (str "disk full")) 3 (str "c2") (str "default") (str "s9") =
        (linkedStore, none) ∧
      linkedStore.ClearSession (some (str "disk full")) (str "c2") (str "default") =
        (linkedStore, none) :=
  have h := c5_session_ops_unbound_noop linkedStore (some (str "disk full")) 3 (str "c2")
    (str "default") (str "s9") rfl
  ⟨rfl, h.1, h.2.1⟩

/-- C6: for every project list and non-empty argument list, `handleLink` does what the
two-phase resolver over the non-disabled projects decides for the joined query: the first
case-insensitive exact match is linked; otherwise no substring match gives the not-found
reply and one substring match is linked and several give the multiple-matches reply with
all their names in list order, the store unchanged unless a project is linked; a disabled
project is never linked and never listed. -/
theorem c6_handleLink_two_phase (toLower quote : GoString → GoString) (eve : EveClient)
    (saveErr : Option GoString) (m : Mappings) (cid : GoString) (args : List GoString)
    (projects : List EveProject) (hargs : args ≠ [])
    (hlist : eve.ListProjects = .ok projects) :
    handleLink toLower quote eve saveErr m cid args =
        linkOutcome quote saveErr m cid (Join args (str " "))
          (resolve toLower projects (Join args (str " "))) ∧
      (∀ p, resolve toLower projects (Join args (str " ")) = Resolution.linked p →
        p ∈ projects ∧ p.Disabled = false) ∧
      (∀ names, resolve toLower projects (Join args (str " ")) = Resolution.ambiguous names →
        names = ((projects.filter (fun p => !p.Disabled)).filter
          (fun p => Contains (toLower p.Name) (toLower (Join args (str " "))))).map
            (fun p => p.Name) ∧
        2 ≤ names.length) :=
  ⟨handleLink_resolve toLower quote eve saveErr m cid args projects hargs hlist,
    resolve_not_disabled toLower projects (Join args (str " "))⟩

/-- C6, witness: the query `pro` against the projects `Proj A`, `Project B` and the
disabled `pro` is ambiguous between the first two. -/
theorem c6_handleLink_two_phase_witness :
    [str "pro"] ≠ [] ∧
      resolve lowerASCII
        [⟨str "p1", str "Proj A", [], [], false⟩, ⟨str "p2", str "Project B", [], [], false⟩,
          ⟨str "p3", str "pro", [], [], true⟩] (str "pro") =
        Resolution.ambiguous [str "Proj A", str "Project B"] ∧
      handleLink lowerASCII id projectsEve none linkedStore (str "c1") [str "pro"] =
        (linkedStore, str "Multiple matches:\n  Proj A\n  Project B\n\nBe more specific.") := by
  have h := (c6_handleLink_two_phase lowerASCII id projectsEve none linkedStore (str "c1")
    [str "pro"] _ (by simp) rfl).1
  have hr : resolve lowerASCII
      [⟨str "p1", str "Proj A", [], [], false⟩, ⟨str "p2", str "Project B", [], [], false⟩,
        ⟨str "p3", str "pro", [], [], true⟩] (str "pro") =
      Resolution.ambiguous [str "Proj A", str "Project B"] := rfl
  refine ⟨by simp, hr, ?_⟩
  rw [h]
  show linkOutcome id none linkedStore (str "c1") (str "pro") (resolve lowerASCII _ (str "pro")) = _
  rw [hr]
  rfl

/-- C7, counterexample: the message endpoint answers with status 500 and an empty body,
which does not decode; `SendMessage` returns the decode error, not an error with the
generic text `Eve returned 500`. -/
theorem c7_undecodable_body_not_agent_error :
    emptyBodyEve.postMessage (str "s1") (str "hi") =
        HttpResult.response 500 [] (Except.error (str "unexpected end of JSON input")) ∧
      emptyBodyEve.SendMessage (str "s1") (str "hi") =
        .error (str "failed to decode response: unexpected end of JSON input") ∧
      emptyBodyEve.SendMessage (str "s1") (str "hi") ≠
        .error (str "Eve returned " ++ formatInt 500) := by
  refine ⟨rfl, rfl, ?_⟩
  intro h
  have h' : emptyBodyEve.SendMessage (str "s1") (str "hi") =
      .error (str "failed to decode response: unexpected end of JSON input") := rfl
  rw [h'] at h
  injection h with h
  exact absurd h (by decide)

/-- C7, amended: for every response of the message endpoint, status 409 yields the Busy
error and 504 the Timeout error whatever the body; for every other status a body that
does not decode yields the decode error; a body that decodes yields, for a status other
than 200, an error whose text is the backend-supplied message or `Eve returned <status>`
when there is none, and for status 200 the successful result; only status 200 with a
body that decodes yields a successful result. -/
theorem c7_sendMessage_classification (e : EveClient) (sessionID text : GoString)
    (status : Nat) (body : GoString) (decoded : Except GoString SendMessageResponse)
    (hpost : e.postMessage sessionID text = HttpResult.response status body decoded) :
    (status = 409 →
      e.SendMessage sessionID text =
        .error (str "session is busy processing another message")) ∧
    (status = 504 → e.SendMessage sessionID text = .error (str "response timed out")) ∧
    (status ≠ 409 → status ≠ 504 → ∀ err, decoded = .error err →
      e.SendMessage sessionID text = .error (str "failed to decode response: " ++ err)) ∧
    (status ≠ 409 → status ≠ 504 → status ≠ 200 → ∀ result, decoded = .ok result →
      (result.Error ≠ [] → e.SendMessage sessionID text = .error result.Error) ∧
      (result.Error = [] →
        e.SendMessage sessionID text =
          .error (str "Eve returned " ++ formatInt status))) ∧
    (status = 200 → ∀ result, decoded = .ok result →
      e.SendMessage sessionID text = .ok result) ∧
    (∀ result, e.SendMessage sessionID text = .ok result →
      status = 200 ∧ decoded = .ok result) :=
  sendMessage_response e sessionID text status body decoded hpost

/-- C7, witness: the backend answering 404 with the message `Session not found`. -/
theorem c7_sendMessage_classification_witness :
    expiredEve.postMessage (str "s0") (str "hi") =
        HttpResult.response 404 [] (Except.ok ⟨[], [], str "Session not found"⟩) ∧
      expiredEve.SendMessage (str "s0") (str "hi") = .error (str "Session not found") :=
  ⟨rfl, ((c7_sendMessage_classification expiredEve (str "s0") (str "hi") 404 []
    (Except.ok ⟨[], [], str "Session not found"⟩) rfl).2.2.2.1 (by decide) (by decide)
    (by decide) ⟨[], [], str "Session not found"⟩ rfl).1 (by decide)⟩

end RelayTelegram
